import Mathlib

/-!
Verification of the `hrw` Go library (Rendezvous / Highest-Random-Weight
hashing, package `hrw`, file `hrw.go`, plus the two earlier revisions of the
package that ship alongside it).

The development shallowly embeds the Go source:

* `weight` embeds `func weight(x uint64, y uint64) uint64` — 64-bit unsigned
  integers are `Nat` values below `2 ^ 64`, wraparound multiplication is
  explicit `% 2 ^ 64`.
* `sortGo` embeds the call `sort.Sort(h)` on the `hashed` receiver.
  `sort.Sort` belongs to the Go standard library, not to this repository.
  In the Go releases of this library's era (before Go 1.19) `sort.Sort` runs
  `quickSort`, and every segment of length at most 12 is finished by a
  gap-6 Shell pass followed by an insertion sort; `sortGo` is that exact
  base-case procedure applied to the whole slice.  For inputs of length at
  most 12 it is instruction-exact Go; for longer inputs it is a correct
  realisation of `sort.Sort`'s documented contract (sorted by `Less`,
  a permutation of the input; `sort.Sort` is not stable and the order of
  equal elements for longer inputs is implementation defined).
* `sortByRule`, `sortByRuleDirect`, `sortByRuleInverse` embed the three
  cycle-walk permutation appliers, with the caller's slice as a `List` and
  the `done []bool` marker array as a `List Bool`.  The inner `for` loops
  are given explicit fuel; `length + 1` iterations are always enough
  (each iteration after the first marks a fresh `done` entry).
* `SortSliceByValue` / `SortSliceByIndex` are embedded twice: a typed,
  pure version used for the permutation claims, and a dynamic version over
  `GoValue` that models the `reflect`-based argument validation, including
  the panics of `reflect.TypeOf(nil).Kind()`, `reflect.Value.Len` and
  `reflect.Swapper` on inadmissible kinds.
* The byte-key hash `Hash` (murmur3, package `github.com/reusee/mmh3`) is an
  external collaborator; operations that consume it are parameterised by an
  arbitrary function standing for it, so every theorem below holds for every
  choice of that collaborator.
-/

/-- Embeds `func weight(x uint64, y uint64) uint64` from `hrw.go`:
XOR of the inputs followed by the 64-bit murmur3 finalizer
(shift-XOR by 33, multiply, shift-XOR, multiply, shift-XOR), all under
64-bit wraparound arithmetic. -/
def weight (x y : Nat) : Nat :=
  let acc0 := x ^^^ y
  let acc1 := acc0 ^^^ (acc0 >>> 33)
  let acc2 := (acc1 * 0xff51afd7ed558ccd) % 2 ^ 64
  let acc3 := acc2 ^^^ (acc2 >>> 33)
  let acc4 := (acc3 * 0xc4ceb9fe1a85ec53) % 2 ^ 64
  acc4 ^^^ (acc4 >>> 33)

/-- The murmur3 finalizer on its own (everything `weight` does after the
initial XOR of its two arguments). -/
def mix64 (a : Nat) : Nat :=
  let acc1 := a ^^^ (a >>> 33)
  let acc2 := (acc1 * 0xff51afd7ed558ccd) % 2 ^ 64
  let acc3 := acc2 ^^^ (acc2 >>> 33)
  let acc4 := (acc3 * 0xc4ceb9fe1a85ec53) % 2 ^ 64
  acc4 ^^^ (acc4 >>> 33)

/-- The shift-XOR step `a ^= a >> 33` of the finalizer. -/
def xs33 (a : Nat) : Nat := a ^^^ (a >>> 33)

/-- Embeds a Go slice swap `s[i], s[j] = s[j], s[i]` (the body of
`hashed.Swap` and of the `swapper` closures produced by `reflect.Swapper`).
Out-of-range indices would panic in Go; the embedding leaves the list
unchanged there, and every theorem below only exercises in-range swaps. -/
def swapL (l : List α) (i j : Nat) : List α :=
  if h : i < l.length ∧ j < l.length then
    (l.set i (l.get ⟨j, h.2⟩)).set j (l.get ⟨i, h.1⟩)
  else l

/-- The comparison key read by `hashed.Less`: `h.weight[h.sorted[p]]`,
with `w` the weight array and `l` the current `sorted` array. -/
def keyW (w l : List Nat) (p : Nat) : Nat := w.getD (l.getD p 0) 0

/-- Embeds the inner loop of Go's `insertionSort`
(`for j := i; j > 0 && data.Less(j, j-1); j-- { data.Swap(j, j-1) }`),
with the loop counter as the recursion argument. -/
def insInner (w : List Nat) : List Nat → Nat → List Nat
  | l, 0 => l
  | l, j + 1 =>
    if keyW w l (j + 1) < keyW w l j then insInner w (swapL l (j + 1) j) j else l

/-- Embeds the outer loop of Go's `insertionSort` on the segment `[0, b)`:
`insOuter w l m` is the state after the iterations `i = 1 .. m`. -/
def insOuter (w : List Nat) (l : List Nat) : Nat → List Nat
  | 0 => l
  | m + 1 => insInner w (insOuter w l m) (m + 1)

/-- Embeds the gap-6 Shell pass that Go's `quickSort` runs before
`insertionSort` on every segment of length at most 12:
`shellGo w l c` is the state after the iterations `i = 6 .. 6+c-1` of
`for i := a + 6; i < b; i++ { if data.Less(i, i-6) { data.Swap(i, i-6) } }`. -/
def shellStep (w l : List Nat) (c : Nat) : List Nat :=
  if keyW w l (6 + c) < keyW w l c then swapL l (6 + c) c else l

def shellGo (w : List Nat) (l : List Nat) : Nat → List Nat
  | 0 => l
  | c + 1 => shellStep w (shellGo w l c) c

/-- Embeds the call `sort.Sort(h)` of `SortByWeight`.  `sort.Sort` is the Go
standard library's unstable sort (not code of this repository).  In the Go
releases this library was built with (before Go 1.19), `sort.Sort` is
`quickSort`, and every segment of length at most 12 is sorted by exactly the
procedure below: nothing for length at most 1, otherwise a gap-6 Shell pass
followed by an insertion sort.  `sortGo` applies that base-case procedure to
the whole slice, so it is instruction-exact Go for lengths at most 12 and a
correct deterministic realisation of `sort.Sort`'s contract (a permutation
of the input, sorted by `Less`) for longer inputs, where only the order of
equal-weight entries is implementation defined in Go. -/
def sortGo (w : List Nat) (l : List Nat) : List Nat :=
  if l.length ≤ 1 then l else insOuter w (shellGo w l (l.length - 6)) (l.length - 1)

/-- Embeds `func SortByWeight(nodes []uint64, hash uint64) []uint64`:
build `sorted = [0..len)` and `weight[i] = weight(nodes[i], hash)`, then
`sort.Sort` on the `hashed` receiver.  The Go function only reads `nodes`
(it appends to two freshly allocated slices), which the pure embedding
renders by returning a new list. -/
def SortByWeight (nodes : List Nat) (hash : Nat) : List Nat :=
  sortGo (nodes.map fun node => weight node hash) (List.range nodes.length)

/-- Stability invariant: entries of `l` (original indices) with equal
weights occur in increasing order. -/
def StOrd (w l : List Nat) : Prop :=
  ∀ p q, p < q → q < l.length → keyW w l p = keyW w l q →
    l.getD p 0 < l.getD q 0

/-- Fuel-based embedding of the inner loop shared by `sortByRule`
(`hrw.go`) and `sortByRuleDirect` (earlier revision):
`for j := rule[i]; !done[rule[j]]; j = rule[j] { swap(i, j); done[j] = true }`.
Each recursion step is one loop test; the callers pass `length + 1` units of
fuel, which always suffices because every iteration after the first marks a
`done` entry that was false. -/
def dirInner (rule : List Nat) :
    Nat → List α → List Bool → Nat → Nat → List α × List Bool
  | 0, l, done, _, _ => (l, done)
  | fuel + 1, l, done, i, j =>
    if done.getD (rule.getD j 0) false then (l, done)
    else dirInner rule fuel (swapL l i j) (done.set j true) i (rule.getD j 0)

/-- Fuel-based embedding of the inner loop of `sortByRuleInverse`:
`for j := i; !done[rule[j]]; j = rule[j] { swap(j, rule[j]); done[j] = true }`. -/
def invInner (rule : List Nat) :
    Nat → List α → List Bool → Nat → List α × List Bool
  | 0, l, done, _ => (l, done)
  | fuel + 1, l, done, j =>
    if done.getD (rule.getD j 0) false then (l, done)
    else invInner rule fuel (swapL l j (rule.getD j 0)) (done.set j true) (rule.getD j 0)

/-- One outer iteration of `sortByRule` from `hrw.go`: skip when `done[i]`,
otherwise mark `done[i] = true` and run the cycle walk from `rule[i]`. -/
def sbrStep (rule : List Nat) (length : Nat) (s : List α × List Bool) (i : Nat) :
    List α × List Bool :=
  if s.2.getD i false then s
  else dirInner rule (length + 1) s.1 (s.2.set i true) i (rule.getD i 0)

def sbrGo (rule : List Nat) (length : Nat) :
    Nat → List α × List Bool → List α × List Bool
  | 0, s => s
  | m + 1, s => sbrStep rule length (sbrGo rule length m s) m

/-- Embeds `func sortByRule(swap swapper, length uint64, rule []uint64)` of
`hrw.go` acting on a caller slice `l`: the `done` array starts all false and
the outer loop runs `i = 0 .. length-1`, marking `done[i]` before each walk. -/
def sortByRule (length : Nat) (rule : List Nat) (l : List α) : List α :=
  (sbrGo rule length length (l, List.replicate length false)).1

/-- One outer iteration of `sortByRuleDirect` (earlier revision): identical
to `sortByRule` except that `done[i]` is not marked before the walk. -/
def sbrdStep (rule : List Nat) (length : Nat) (s : List α × List Bool) (i : Nat) :
    List α × List Bool :=
  if s.2.getD i false then s
  else dirInner rule (length + 1) s.1 s.2 i (rule.getD i 0)

def sbrdGo (rule : List Nat) (length : Nat) :
    Nat → List α × List Bool → List α × List Bool
  | 0, s => s
  | m + 1, s => sbrdStep rule length (sbrdGo rule length m s) m

/-- Embeds `func sortByRuleDirect(swap swapper, length uint64, rule []uint64)`
from the revision of the package that carries both directional variants. -/
def sortByRuleDirect (length : Nat) (rule : List Nat) (l : List α) : List α :=
  (sbrdGo rule length length (l, List.replicate length false)).1

/-- One outer iteration of `sortByRuleInverse`: skip when `done[i]`,
otherwise run the inverse cycle walk from `j = i`. -/
def sbriStep (rule : List Nat) (length : Nat) (s : List α × List Bool) (i : Nat) :
    List α × List Bool :=
  if s.2.getD i false then s
  else invInner rule (length + 1) s.1 s.2 i

def sbriGo (rule : List Nat) (length : Nat) :
    Nat → List α × List Bool → List α × List Bool
  | 0, s => s
  | m + 1, s => sbriStep rule length (sbriGo rule length m s) m

/-- Embeds `func sortByRuleInverse(swap swapper, length uint64, rule []uint64)`
from the revision of the package that carries both directional variants. -/
def sortByRuleInverse (length : Nat) (rule : List Nat) (l : List α) : List α :=
  (sbriGo rule length length (l, List.replicate length false)).1

/-- Typed embedding of `func SortSliceByIndex(slice interface{}, hash uint64)`
from `hrw.go` on a slice argument: rank the index rule `[0..len)` with
`SortByWeight`, then reorder in place with `sortByRule`. -/
def SortSliceByIndex (xs : List α) (hash : Nat) : List α :=
  sortByRule xs.length (SortByWeight (List.range xs.length) hash) xs

/-- The index map `t ↦ rule[t]` of a rule slice. -/
def ruleFn (rule : List Nat) (t : Nat) : Nat := rule.getD t 0

/-- Orbit membership for the index map of a rule. -/
def inOrb (rule : List Nat) (i p : Nat) : Prop := ∃ t, (ruleFn rule)^[t] i = p

/-- The least element of the orbit of `i` under the index map of `rule`
(all orbit elements occur among the first `n + 1` iterates). -/
def minOrb (rule : List Nat) (n i : Nat) : Nat :=
  ((List.range (n + 1)).map fun t => (ruleFn rule)^[t] i).foldr min i

/-- Model of the dynamic `interface{}` argument of `SortSliceByValue` /
`SortSliceByIndex`: the nil interface, two representative non-slice kinds,
and the slice types the code distinguishes in its type switch.  Elements of
a slice whose type implements `Hasher` are represented by the value their
`Hash()` method returns; `sliceByte` stands for `[]byte`, the test suite's
example of a slice type that is neither `[]int` nor `[]string` and whose
element type has no `Hash` method. -/
inductive GoValue where
  | goNil : GoValue
  | goInt : Int → GoValue
  | goString : String → GoValue
  | sliceInt : List Int → GoValue
  | sliceString : List String → GoValue
  | sliceHasher : List Nat → GoValue
  | sliceByte : List Nat → GoValue
deriving DecidableEq

inductive GoKind where
  | intKind | stringKind | sliceKind
deriving DecidableEq

/-- Model of `reflect.TypeOf(v)` followed by `.Kind()`:
`none` is the nil interface, whose `Kind()` call panics. -/
def goKind : GoValue → Option GoKind
  | .goNil => none
  | .goInt _ => some .intKind
  | .goString _ => some .stringKind
  | .sliceInt _ => some .sliceKind
  | .sliceString _ => some .sliceKind
  | .sliceHasher _ => some .sliceKind
  | .sliceByte _ => some .sliceKind

/-- Result of a call to `SortSliceByValue`: a runtime panic, an error return
(with the — untouched — argument), or normal completion with the argument's
final contents. -/
inductive SliceOutcome where
  | panicked : SliceOutcome
  | errored : String → GoValue → SliceOutcome
  | ok : GoValue → SliceOutcome
deriving DecidableEq

/-- Embeds `func SortSliceByValue(slice interface{}, hash uint64) error` from
`hrw.go`, parameterised by the external byte-key hash `Hash` (murmur3 from
`github.com/reusee/mmh3`), modelled as an arbitrary function `HashStr` on the
string whose bytes Go would hash.  A nil argument panics inside
`reflect.TypeOf(nil).Kind()`; other non-slice kinds fail the
`t.Kind() != reflect.Slice` check; an empty slice returns nil before the type
switch; `[]byte` falls into the `default` arm, fails the `Hasher` assertion
on its first element and returns the "unknown type" error with the slice
untouched; the three supported paths build the per-element rule
`weight(hash, elementHash)`, rank it with `SortByWeight` and reorder the
slice in place with `sortByRule`. -/
def SortSliceByValue (HashStr : String → Nat) (v : GoValue) (hash : Nat) :
    SliceOutcome :=
  match v with
  | .goNil => .panicked
  | .goInt _ => .errored "must be slice" v
  | .goString _ => .errored "must be slice" v
  | .sliceInt xs =>
    if xs.length = 0 then .ok v
    else
      .ok (.sliceInt (sortByRule xs.length
        (SortByWeight (xs.map fun x => weight hash (HashStr (toString x))) hash) xs))
  | .sliceString xs =>
    if xs.length = 0 then .ok v
    else
      .ok (.sliceString (sortByRule xs.length
        (SortByWeight (xs.map fun x => weight hash (HashStr x)) hash) xs))
  | .sliceHasher xs =>
    if xs.length = 0 then .ok v
    else
      .ok (.sliceHasher (sortByRule xs.length
        (SortByWeight (xs.map fun x => weight hash x) hash) xs))
  | .sliceByte xs =>
    if xs.length = 0 then .ok v
    else .errored "unknown type" v

/-- Embeds `func SortSliceByIndex(slice interface{}, hash uint64)` on the
dynamic argument.  The function validates nothing:
`reflect.ValueOf(slice).Len()` panics for a nil or `int` argument (their
kinds carry no length), and for a string `Len()` succeeds but
`reflect.Swapper(slice)` panics because the argument is not a slice.
`none` models the panic. -/
def SortSliceByIndexDyn (v : GoValue) (hash : Nat) : Option GoValue :=
  match v with
  | .goNil => none
  | .goInt _ => none
  | .goString _ => none
  | .sliceInt xs => some (.sliceInt (SortSliceByIndex xs hash))
  | .sliceString xs => some (.sliceString (SortSliceByIndex xs hash))
  | .sliceHasher xs => some (.sliceHasher (SortSliceByIndex xs hash))
  | .sliceByte xs => some (.sliceByte (SortSliceByIndex xs hash))

/-- The positional source map applied by `SortSliceByIndex` for a given
length and key seed: entry `p` names the original position whose element
ends up at position `p`. -/
def indexPermOf (n hash : Nat) : List Nat :=
  SortSliceByIndex (List.range n) hash

theorem weight_eq_mix64 (x y : Nat) : weight x y = mix64 (x ^^^ y) := rfl

theorem weight_comm (x y : Nat) : weight x y = weight y x := by
  rw [weight_eq_mix64, weight_eq_mix64, Nat.xor_comm]

theorem weight_self (x : Nat) : weight x x = 0 := by
  rw [weight_eq_mix64, Nat.xor_self]
  rfl

theorem xs33_lt (a : Nat) (h : a < 2 ^ 64) : xs33 a < 2 ^ 64 := by
  have h1 : a < 2 ^ 64 := h
  have h2 : a >>> 33 < 2 ^ 64 := by
    calc a >>> 33 = a / 2 ^ 33 := Nat.shiftRight_eq_div_pow a 33
    _ ≤ a := Nat.div_le_self _ _
    _ < 2 ^ 64 := h
  exact Nat.xor_lt_two_pow h1 h2

theorem xs33_invol (a : Nat) (h : a < 2 ^ 64) : xs33 (xs33 a) = a := by
  unfold xs33
  apply Nat.eq_of_testBit_eq
  intro i
  have hhi : a.testBit (33 + (33 + i)) = false := by
    apply Nat.testBit_eq_false_of_lt
    calc a < 2 ^ 64 := h
    _ ≤ 2 ^ (33 + (33 + i)) := Nat.pow_le_pow_right (by norm_num) (by omega)
  simp only [Nat.testBit_xor, Nat.testBit_shiftRight, hhi]
  cases a.testBit i <;> cases a.testBit (33 + i) <;> rfl

theorem xs33_injOn {a b : Nat} (ha : a < 2 ^ 64) (hb : b < 2 ^ 64)
    (h : xs33 a = xs33 b) : a = b := by
  have := congrArg xs33 h
  rwa [xs33_invol a ha, xs33_invol b hb] at this

theorem mulc_injOn {c : Nat} (hc : c % 2 = 1) {a b : Nat}
    (ha : a < 2 ^ 64) (hb : b < 2 ^ 64)
    (h : (a * c) % 2 ^ 64 = (b * c) % 2 ^ 64) : a = b := by
  have hco : (2 ^ 64).gcd c = 1 := by
    have h2 : Nat.Coprime 2 c := Nat.coprime_two_left.mpr (Nat.odd_iff.mpr hc)
    exact h2.pow_left 64
  have hmod : a ≡ b [MOD 2 ^ 64] :=
    Nat.ModEq.cancel_right_of_coprime hco h
  calc a = a % 2 ^ 64 := (Nat.mod_eq_of_lt ha).symm
  _ = b % 2 ^ 64 := hmod
  _ = b := Nat.mod_eq_of_lt hb

theorem mix64_lt (a : Nat) (_h : a < 2 ^ 64) : mix64 a < 2 ^ 64 := by
  unfold mix64
  exact xs33_lt _ (Nat.mod_lt _ (by norm_num))

theorem mix64_injOn {a b : Nat} (ha : a < 2 ^ 64) (hb : b < 2 ^ 64)
    (h : mix64 a = mix64 b) : a = b := by
  unfold mix64 at h
  have l1a : xs33 a < 2 ^ 64 := xs33_lt a ha
  have l1b : xs33 b < 2 ^ 64 := xs33_lt b hb
  have l2a : (xs33 a * 0xff51afd7ed558ccd) % 2 ^ 64 < 2 ^ 64 :=
    Nat.mod_lt _ (by norm_num)
  have l2b : (xs33 b * 0xff51afd7ed558ccd) % 2 ^ 64 < 2 ^ 64 :=
    Nat.mod_lt _ (by norm_num)
  have l3a : xs33 ((xs33 a * 0xff51afd7ed558ccd) % 2 ^ 64) < 2 ^ 64 := xs33_lt _ l2a
  have l3b : xs33 ((xs33 b * 0xff51afd7ed558ccd) % 2 ^ 64) < 2 ^ 64 := xs33_lt _ l2b
  have l4a : (xs33 ((xs33 a * 0xff51afd7ed558ccd) % 2 ^ 64) * 0xc4ceb9fe1a85ec53) % 2 ^ 64
      < 2 ^ 64 := Nat.mod_lt _ (by norm_num)
  have l4b : (xs33 ((xs33 b * 0xff51afd7ed558ccd) % 2 ^ 64) * 0xc4ceb9fe1a85ec53) % 2 ^ 64
      < 2 ^ 64 := Nat.mod_lt _ (by norm_num)
  have h4 := xs33_injOn l4a l4b h
  have h3 := mulc_injOn (by norm_num) l3a l3b h4
  have h2 := xs33_injOn l2a l2b h3
  have h1 := mulc_injOn (by norm_num) l1a l1b h2
  exact xs33_injOn ha hb h1

theorem weight_eq_zero_iff {x y : Nat} (hx : x < 2 ^ 64) (hy : y < 2 ^ 64) :
    weight x y = 0 ↔ x = y := by
  constructor
  · intro h
    rw [weight_eq_mix64] at h
    have hxy : x ^^^ y < 2 ^ 64 := Nat.xor_lt_two_pow hx hy
    have h0 : mix64 (x ^^^ y) = mix64 0 := by simpa using h
    have := mix64_injOn hxy (by norm_num) h0
    exact Nat.xor_eq_zero.mp this
  · intro h
    subst h
    exact weight_self x

theorem weight_lt (x y : Nat) : weight x y < 2 ^ 64 := by
  unfold weight
  exact xs33_lt _ (Nat.mod_lt _ (by norm_num))

theorem length_swapL (l : List α) (i j : Nat) : (swapL l i j).length = l.length := by
  unfold swapL
  split <;> simp

theorem getElem?_swapL (l : List α) {i j : Nat} (hi : i < l.length) (hj : j < l.length)
    (k : Nat) :
    (swapL l i j)[k]? = if k = j then l[i]? else if k = i then l[j]? else l[k]? := by
  unfold swapL
  rw [dif_pos ⟨hi, hj⟩]
  by_cases hkj : k = j
  · subst hkj
    rw [if_pos rfl, List.getElem?_set_self (by simpa using hj), List.getElem?_eq_getElem hi]
    simp
  · rw [if_neg hkj, List.getElem?_set_ne (fun h => hkj h.symm)]
    by_cases hki : k = i
    · subst hki
      rw [if_pos rfl, List.getElem?_set_self hi, List.getElem?_eq_getElem hj]
      simp
    · rw [if_neg hki, List.getElem?_set_ne (fun h => hki h.symm)]

theorem getElem?_swapL_other (l : List α) {i j k : Nat} (hki : k ≠ i) (hkj : k ≠ j) :
    (swapL l i j)[k]? = l[k]? := by
  unfold swapL
  split
  · rw [List.getElem?_set_ne (fun h => hkj h.symm), List.getElem?_set_ne (fun h => hki h.symm)]
  · rfl

theorem cons_getElem_set_perm (xs : List α) (m : Nat) (v : α) (hm : m < xs.length) :
    (xs.get ⟨m, hm⟩ :: xs.set m v).Perm (v :: xs) := by
  induction xs generalizing m with
  | nil => exact absurd hm (by simp)
  | cons x t ih =>
    cases m with
    | zero => exact List.Perm.swap v x t
    | succ m =>
      have hm' : m < t.length := by simpa using hm
      have e1 : (x :: t).get ⟨m + 1, hm⟩ = t.get ⟨m, hm'⟩ := rfl
      have e2 : (x :: t).set (m + 1) v = x :: t.set m v := rfl
      rw [e1, e2]
      have s1 : (t.get ⟨m, hm'⟩ :: x :: t.set m v).Perm
          (x :: t.get ⟨m, hm'⟩ :: t.set m v) := List.Perm.swap x _ _
      have s2 : (x :: t.get ⟨m, hm'⟩ :: t.set m v).Perm (x :: v :: t) :=
        List.Perm.cons x (ih m hm')
      have s3 : (x :: v :: t).Perm (v :: x :: t) := List.Perm.swap v x t
      exact (s1.trans s2).trans s3

theorem set_get_self_eq (l : List α) (i : Nat) (hi : i < l.length) :
    l.set i (l.get ⟨i, hi⟩) = l := by
  apply List.ext_getElem?
  intro n
  by_cases h : i = n
  · subst h
    rw [List.getElem?_set_self hi]
    simp [List.getElem?_eq_getElem hi]
  · rw [List.getElem?_set_ne h]

theorem swapL_perm (l : List α) {i j : Nat} (hi : i < l.length) (hj : j < l.length) :
    (swapL l i j).Perm l := by
  unfold swapL
  rw [dif_pos ⟨hi, hj⟩]
  by_cases hij : i = j
  · subst hij
    rw [List.set_set, set_get_self_eq]
  · have hj' : j < (l.set i (l.get ⟨j, hj⟩)).length := by simpa using hj
    have hval : (l.set i (l.get ⟨j, hj⟩)).get ⟨j, hj'⟩ = l.get ⟨j, hj⟩ := by
      simp [List.getElem_set_ne hij]
    have A := cons_getElem_set_perm (l.set i (l.get ⟨j, hj⟩)) j (l.get ⟨i, hi⟩) hj'
    rw [hval] at A
    have B := cons_getElem_set_perm l i (l.get ⟨j, hj⟩) hi
    have C : (l.get ⟨j, hj⟩ :: (l.set i (l.get ⟨j, hj⟩)).set j (l.get ⟨i, hi⟩)).Perm
        (l.get ⟨j, hj⟩ :: l) := A.trans B
    exact C.cons_inv

theorem swapL_oob (l : List α) {i j : Nat} (h : ¬(i < l.length ∧ j < l.length)) :
    swapL l i j = l := dif_neg h

theorem swapL_perm' (l : List α) (i j : Nat) : (swapL l i j).Perm l := by
  by_cases h : i < l.length ∧ j < l.length
  · exact swapL_perm l h.1 h.2
  · rw [swapL_oob l h]

theorem keyW_congr {w l l' : List Nat} {p : Nat} (h : l[p]? = l'[p]?) :
    keyW w l p = keyW w l' p := by
  simp only [keyW, List.getD_eq_getElem?_getD]
  rw [h]

theorem keyW_swapL_left {w l : List Nat} {i j : Nat} (hi : i < l.length)
    (hj : j < l.length) : keyW w (swapL l i j) j = keyW w l i := by
  simp only [keyW, List.getD_eq_getElem?_getD]
  rw [getElem?_swapL l hi hj j, if_pos rfl]

theorem keyW_swapL_right {w l : List Nat} {i j : Nat} (hi : i < l.length)
    (hj : j < l.length) (hne : i ≠ j) : keyW w (swapL l i j) i = keyW w l j := by
  simp only [keyW, List.getD_eq_getElem?_getD]
  rw [getElem?_swapL l hi hj i, if_neg hne, if_pos rfl]

theorem keyW_swapL_other {w l : List Nat} {i j k : Nat} (hki : k ≠ i) (hkj : k ≠ j) :
    keyW w (swapL l i j) k = keyW w l k :=
  keyW_congr (getElem?_swapL_other l hki hkj)

theorem length_insInner (w : List Nat) : ∀ j l, (insInner w l j).length = l.length := by
  intro j
  induction j with
  | zero => intro l; rfl
  | succ j ih =>
    intro l
    unfold insInner
    split
    · rw [ih, length_swapL]
    · rfl

theorem length_insOuter (w l : List Nat) : ∀ m, (insOuter w l m).length = l.length := by
  intro m
  induction m with
  | zero => rfl
  | succ m ih => rw [insOuter, length_insInner, ih]

theorem length_shellStep (w l : List Nat) (c : Nat) :
    (shellStep w l c).length = l.length := by
  unfold shellStep
  split
  · exact length_swapL l _ _
  · rfl

theorem length_shellGo (w l : List Nat) : ∀ c, (shellGo w l c).length = l.length := by
  intro c
  induction c with
  | zero => rfl
  | succ c ih => rw [shellGo, length_shellStep, ih]

theorem length_sortGo (w l : List Nat) : (sortGo w l).length = l.length := by
  unfold sortGo
  split
  · rfl
  · rw [length_insOuter, length_shellGo]

theorem perm_insInner (w : List Nat) : ∀ j l, (insInner w l j).Perm l := by
  intro j
  induction j with
  | zero => intro l; exact List.Perm.refl l
  | succ j ih =>
    intro l
    unfold insInner
    split
    · exact (ih _).trans (swapL_perm' l _ _)
    · exact List.Perm.refl l

theorem perm_insOuter (w l : List Nat) : ∀ m, (insOuter w l m).Perm l := by
  intro m
  induction m with
  | zero => exact List.Perm.refl l
  | succ m ih => exact (perm_insInner w _ _).trans ih

theorem perm_shellStep (w l : List Nat) (c : Nat) : (shellStep w l c).Perm l := by
  unfold shellStep
  split
  · exact swapL_perm' _ _ _
  · exact List.Perm.refl l

theorem perm_shellGo (w l : List Nat) : ∀ c, (shellGo w l c).Perm l := by
  intro c
  induction c with
  | zero => exact List.Perm.refl l
  | succ c ih => exact (perm_shellStep _ _ _).trans ih

theorem perm_sortGo (w l : List Nat) : (sortGo w l).Perm l := by
  unfold sortGo
  split
  · exact List.Perm.refl l
  · exact (perm_insOuter _ _ _).trans (perm_shellGo _ _ _)

theorem getElem?_insInner_of_gt (w : List Nat) :
    ∀ j l p, j < p → (insInner w l j)[p]? = l[p]? := by
  intro j
  induction j with
  | zero => intro l p _; rfl
  | succ j ih =>
    intro l p hp
    unfold insInner
    split
    · rw [ih _ _ (by omega), getElem?_swapL_other _ (by omega) (by omega)]
    · rfl

theorem insInner_spec (w : List Nat) (i : Nat) :
    ∀ j l, j ≤ i → i < l.length →
    (∀ k, k + 1 < j → keyW w l k ≤ keyW w l (k + 1)) →
    (∀ k, j ≤ k → k + 1 ≤ i → keyW w l k ≤ keyW w l (k + 1)) →
    (1 ≤ j → j < i → keyW w l (j - 1) ≤ keyW w l (j + 1)) →
    ∀ k, k + 1 ≤ i → keyW w (insInner w l j) k ≤ keyW w (insInner w l j) (k + 1) := by
  intro j
  induction j with
  | zero =>
    intro l _ _ _ hB _ k hk
    exact hB k (Nat.zero_le k) hk
  | succ j ih =>
    intro l hji hil hA hB hD
    unfold insInner
    split
    · next hcond =>
      have hj1 : j + 1 < l.length := by omega
      have hj0 : j < l.length := by omega
      have eL : keyW w (swapL l (j + 1) j) j = keyW w l (j + 1) :=
        keyW_swapL_left hj1 hj0
      have eR : keyW w (swapL l (j + 1) j) (j + 1) = keyW w l j :=
        keyW_swapL_right hj1 hj0 (by omega)
      apply ih (swapL l (j + 1) j) (by omega) (by rw [length_swapL]; exact hil)
      · intro k hk
        have e1 : keyW w (swapL l (j + 1) j) k = keyW w l k :=
          keyW_swapL_other (by omega) (by omega)
        have e2 : keyW w (swapL l (j + 1) j) (k + 1) = keyW w l (k + 1) :=
          keyW_swapL_other (by omega) (by omega)
        rw [e1, e2]
        exact hA k (by omega)
      · intro k hkj hki
        rcases Nat.lt_trichotomy k (j + 1) with hlt | heq | hgt
        · -- k = j
          have hkeq : k = j := by omega
          subst hkeq
          rw [eL, eR]
          exact Nat.le_of_lt hcond
        · -- k = j + 1
          subst heq
          rw [eR]
          have e2 : keyW w (swapL l (j + 1) j) (j + 1 + 1) = keyW w l (j + 1 + 1) :=
            keyW_swapL_other (by omega) (by omega)
          rw [e2]
          have := hD (by omega) (by omega)
          have e3 : j + 1 - 1 = j := by omega
          rw [e3] at this
          exact this
        · -- k ≥ j + 2
          have e1 : keyW w (swapL l (j + 1) j) k = keyW w l k :=
            keyW_swapL_other (by omega) (by omega)
          have e2 : keyW w (swapL l (j + 1) j) (k + 1) = keyW w l (k + 1) :=
            keyW_swapL_other (by omega) (by omega)
          rw [e1, e2]
          exact hB k (by omega) hki
      · intro hj1' hji'
        have e1 : keyW w (swapL l (j + 1) j) (j - 1) = keyW w l (j - 1) :=
          keyW_swapL_other (by omega) (by omega)
        rw [e1, eR]
        have := hA (j - 1) (by omega)
        have e3 : j - 1 + 1 = j := by omega
        rw [e3] at this
        exact this
    · next hcond =>
      intro k hk
      rcases Nat.lt_trichotomy k j with hlt | heq | hgt
      · exact hA k (by omega)
      · subst heq
        exact Nat.le_of_not_lt hcond
      · exact hB k (by omega) hk

theorem insOuter_sorted (w l : List Nat) :
    ∀ m, m < l.length →
    ∀ k, k + 1 ≤ m → keyW w (insOuter w l m) k ≤ keyW w (insOuter w l m) (k + 1) := by
  intro m
  induction m with
  | zero => intro _ k hk; omega
  | succ m ih =>
    intro hm k hk
    rw [insOuter]
    apply insInner_spec w (m + 1) (m + 1) (insOuter w l m) (le_refl _)
      (by rw [length_insOuter]; exact hm)
    · intro k' hk'
      exact ih (by omega) k' (by omega)
    · intro k' hk1 hk2
      omega
    · intro _ hcontra
      omega
    · exact hk

theorem sortGo_sorted (w l : List Nat) :
    ∀ k, k + 1 < l.length → keyW w (sortGo w l) k ≤ keyW w (sortGo w l) (k + 1) := by
  intro k hk
  unfold sortGo
  split
  · next h => omega
  · next h =>
    have hlen : (shellGo w l (l.length - 6)).length = l.length := length_shellGo w l _
    exact insOuter_sorted w _ (l.length - 1) (by rw [hlen]; omega) k (by omega)

theorem mono_of_adjacent {f : Nat → Nat} {n : Nat}
    (h : ∀ k, k + 1 < n → f k ≤ f (k + 1)) :
    ∀ i j, i < j → j < n → f i ≤ f j := by
  have key : ∀ d i, i + d < n → f i ≤ f (i + d) := by
    intro d
    induction d with
    | zero => intro i _; exact le_refl _
    | succ d ih =>
      intro i hi
      have h1 : f i ≤ f (i + d) := ih i (by omega)
      have h2 : f (i + d) ≤ f (i + d + 1) := h (i + d) (by omega)
      have e : i + (d + 1) = i + d + 1 := by omega
      rw [e]
      exact h1.trans h2
  intro i j hij hj
  have e : j = i + (j - i) := by omega
  rw [e]
  exact key (j - i) i (by omega)

theorem SortByWeight_perm (nodes : List Nat) (hash : Nat) :
    (SortByWeight nodes hash).Perm (List.range nodes.length) :=
  perm_sortGo _ _

theorem SortByWeight_length (nodes : List Nat) (hash : Nat) :
    (SortByWeight nodes hash).length = nodes.length := by
  unfold SortByWeight
  rw [length_sortGo, List.length_range]

theorem SortByWeight_entry_lt (nodes : List Nat) (hash : Nat) {k : Nat}
    (hk : k < (SortByWeight nodes hash).length) :
    (SortByWeight nodes hash).getD k 0 < nodes.length := by
  have hmem : (SortByWeight nodes hash).getD k 0 ∈ SortByWeight nodes hash := by
    rw [List.getD_eq_getElem _ _ hk]
    exact List.getElem_mem hk
  have := (SortByWeight_perm nodes hash).mem_iff.mp hmem
  exact List.mem_range.mp this

theorem keyW_SortByWeight (nodes : List Nat) (hash : Nat) {k : Nat}
    (hk : k < (SortByWeight nodes hash).length) :
    keyW (nodes.map fun node => weight node hash) (SortByWeight nodes hash) k
      = weight (nodes.getD ((SortByWeight nodes hash).getD k 0) 0) hash := by
  have he : (SortByWeight nodes hash).getD k 0 < nodes.length :=
    SortByWeight_entry_lt nodes hash hk
  unfold keyW
  rw [List.getD_eq_getElem _ _ (by rw [List.length_map]; exact he),
    List.getElem_map, List.getD_eq_getElem _ _ he]

theorem SortByWeight_sorted (nodes : List Nat) (hash : Nat) :
    ∀ k, k + 1 < (SortByWeight nodes hash).length →
      weight (nodes.getD ((SortByWeight nodes hash).getD k 0) 0) hash
        ≤ weight (nodes.getD ((SortByWeight nodes hash).getD (k + 1) 0) 0) hash := by
  intro k hk
  rw [← keyW_SortByWeight nodes hash (by omega), ← keyW_SortByWeight nodes hash hk]
  have := sortGo_sorted (nodes.map fun node => weight node hash)
    (List.range nodes.length) k
  apply this
  rw [List.length_range]
  have := SortByWeight_length nodes hash
  omega

theorem SortByWeight_sorted_pairs (nodes : List Nat) (hash : Nat) :
    ∀ i j, i < j → j < (SortByWeight nodes hash).length →
      weight (nodes.getD ((SortByWeight nodes hash).getD i 0) 0) hash
        ≤ weight (nodes.getD ((SortByWeight nodes hash).getD j 0) 0) hash :=
  mono_of_adjacent (SortByWeight_sorted nodes hash)

theorem SortByWeight_head_unique_min (nodes : List Nat) (hash i : Nat)
    (hn : i < nodes.length)
    (hbound : ∀ j, j < nodes.length → nodes.getD j 0 < 2 ^ 64)
    (hhash : hash < 2 ^ 64)
    (heq : nodes.getD i 0 = hash)
    (huniq : ∀ j, j < nodes.length → j ≠ i → nodes.getD j 0 ≠ hash) :
    (SortByWeight nodes hash).getD 0 0 = i := by
  have hlen : (SortByWeight nodes hash).length = nodes.length :=
    SortByWeight_length nodes hash
  have hmem : i ∈ SortByWeight nodes hash :=
    (SortByWeight_perm nodes hash).symm.subset (List.mem_range.mpr hn)
  obtain ⟨t, ht, hti⟩ := List.getElem_of_mem hmem
  have htD : (SortByWeight nodes hash).getD t 0 = i := by
    rw [List.getD_eq_getElem _ _ ht, hti]
  rcases Nat.eq_zero_or_pos t with h0 | hpos
  · subst h0
    exact htD
  · have hkey0 : weight (nodes.getD ((SortByWeight nodes hash).getD 0 0) 0) hash
        ≤ weight (nodes.getD ((SortByWeight nodes hash).getD t 0) 0) hash :=
      SortByWeight_sorted_pairs nodes hash 0 t hpos ht
    rw [htD, heq, weight_self] at hkey0
    have hz : weight (nodes.getD ((SortByWeight nodes hash).getD 0 0) 0) hash = 0 := by
      omega
    have he0 : (SortByWeight nodes hash).getD 0 0 < nodes.length :=
      SortByWeight_entry_lt nodes hash (by omega)
    have := (weight_eq_zero_iff (hbound _ he0) hhash).mp hz
    by_contra hne
    exact huniq _ he0 hne this

theorem getD_swapL_left {l : List Nat} {i j : Nat} (hi : i < l.length)
    (hj : j < l.length) : (swapL l i j).getD j 0 = l.getD i 0 := by
  rw [List.getD_eq_getElem?_getD, List.getD_eq_getElem?_getD,
    getElem?_swapL l hi hj j, if_pos rfl]

theorem getD_swapL_right {l : List Nat} {i j : Nat} (hi : i < l.length)
    (hj : j < l.length) (hne : i ≠ j) : (swapL l i j).getD i 0 = l.getD j 0 := by
  rw [List.getD_eq_getElem?_getD, List.getD_eq_getElem?_getD,
    getElem?_swapL l hi hj i, if_neg hne, if_pos rfl]

theorem getD_swapL_other {l : List Nat} {i j k : Nat} (hki : k ≠ i) (hkj : k ≠ j) :
    (swapL l i j).getD k 0 = l.getD k 0 := by
  rw [List.getD_eq_getElem?_getD, List.getD_eq_getElem?_getD,
    getElem?_swapL_other l hki hkj]

theorem stOrd_swapL_adj {w l : List Nat} {j : Nat} (hj1 : j + 1 < l.length)
    (hstrict : keyW w l (j + 1) < keyW w l j) (hst : StOrd w l) :
    StOrd w (swapL l (j + 1) j) := by
  intro p q hpq hq hkeys
  rw [length_swapL] at hq
  have hj0 : j < l.length := by omega
  by_cases hpj : p = j
  · by_cases hqj1 : q = j + 1
    · rw [hpj, hqj1, keyW_swapL_left hj1 hj0,
        keyW_swapL_right hj1 hj0 (by omega)] at hkeys
      omega
    · have hq2 : j + 1 < q := by omega
      rw [hpj, keyW_swapL_left hj1 hj0,
        keyW_swapL_other (show q ≠ j + 1 from hqj1) (show q ≠ j by omega)] at hkeys
      rw [hpj, getD_swapL_left hj1 hj0,
        getD_swapL_other (show q ≠ j + 1 from hqj1) (show q ≠ j by omega)]
      exact hst (j + 1) q hq2 hq hkeys
  · by_cases hpj1 : p = j + 1
    · have hq2 : j + 1 < q := by omega
      rw [hpj1, keyW_swapL_right hj1 hj0 (by omega),
        keyW_swapL_other (show q ≠ j + 1 by omega) (show q ≠ j by omega)] at hkeys
      rw [hpj1, getD_swapL_right hj1 hj0 (by omega),
        getD_swapL_other (show q ≠ j + 1 by omega) (show q ≠ j by omega)]
      exact hst j q (by omega) hq hkeys
    · by_cases hqj : q = j
      · rw [hqj, keyW_swapL_other (show p ≠ j + 1 from hpj1) (show p ≠ j from hpj),
          keyW_swapL_left hj1 hj0] at hkeys
        rw [hqj, getD_swapL_other (show p ≠ j + 1 from hpj1) (show p ≠ j from hpj),
          getD_swapL_left hj1 hj0]
        exact hst p (j + 1) (by omega) hj1 hkeys
      · by_cases hqj1 : q = j + 1
        · rw [hqj1, keyW_swapL_other (show p ≠ j + 1 from hpj1) (show p ≠ j from hpj),
            keyW_swapL_right hj1 hj0 (by omega)] at hkeys
          rw [hqj1, getD_swapL_other (show p ≠ j + 1 from hpj1) (show p ≠ j from hpj),
            getD_swapL_right hj1 hj0 (by omega)]
          exact hst p j (by omega) hj0 hkeys
        · rw [keyW_swapL_other (show p ≠ j + 1 from hpj1) (show p ≠ j from hpj),
            keyW_swapL_other (show q ≠ j + 1 from hqj1) (show q ≠ j from hqj)] at hkeys
          rw [getD_swapL_other (show p ≠ j + 1 from hpj1) (show p ≠ j from hpj),
            getD_swapL_other (show q ≠ j + 1 from hqj1) (show q ≠ j from hqj)]
          exact hst p q hpq hq hkeys

theorem stOrd_insInner (w : List Nat) : ∀ j l, StOrd w l → StOrd w (insInner w l j) := by
  intro j
  induction j with
  | zero => intro l hst; exact hst
  | succ j ih =>
    intro l hst
    unfold insInner
    split
    · next hcond =>
      by_cases hb : j + 1 < l.length
      · exact ih _ (stOrd_swapL_adj hb hcond hst)
      · rw [swapL_oob l (by omega)]
        exact ih _ hst
    · exact hst

theorem stOrd_insOuter (w l : List Nat) : ∀ m, StOrd w l → StOrd w (insOuter w l m) := by
  intro m hst
  induction m with
  | zero => exact hst
  | succ m ih => exact stOrd_insInner w (m + 1) _ ih

theorem stOrd_sortGo_small (w l : List Nat) (hlen : l.length ≤ 6) (hst : StOrd w l) :
    StOrd w (sortGo w l) := by
  unfold sortGo
  split
  · exact hst
  · have e : l.length - 6 = 0 := by omega
    rw [e]
    have e2 : shellGo w l 0 = l := rfl
    rw [e2]
    exact stOrd_insOuter w l _ hst

theorem stOrd_range (w : List Nat) (n : Nat) : StOrd w (List.range n) := by
  intro p q hpq hq _
  rw [List.length_range] at hq
  rw [List.getD_eq_getElem _ _ (by rw [List.length_range]; omega),
    List.getD_eq_getElem _ _ (by rw [List.length_range]; exact hq)]
  simpa [List.getElem_range] using hpq

theorem SortByWeight_stable_small (nodes : List Nat) (hash : Nat)
    (hsmall : nodes.length ≤ 6) :
    ∀ p q, p < q → q < (SortByWeight nodes hash).length →
      weight (nodes.getD ((SortByWeight nodes hash).getD p 0) 0) hash
        = weight (nodes.getD ((SortByWeight nodes hash).getD q 0) 0) hash →
      (SortByWeight nodes hash).getD p 0 < (SortByWeight nodes hash).getD q 0 := by
  intro p q hpq hq hkeys
  have hst := stOrd_sortGo_small (nodes.map fun node => weight node hash)
    (List.range nodes.length) (by rw [List.length_range]; exact hsmall)
    (stOrd_range _ nodes.length)
  rw [← keyW_SortByWeight nodes hash (by omega), ← keyW_SortByWeight nodes hash hq] at hkeys
  exact hst p q hpq hq hkeys

theorem dirInner_lengths (rule : List Nat) :
    ∀ fuel (l : List α) done i j,
      (dirInner rule fuel l done i j).1.length = l.length ∧
      (dirInner rule fuel l done i j).2.length = done.length := by
  intro fuel
  induction fuel with
  | zero => intro l done i j; exact ⟨rfl, rfl⟩
  | succ fuel ih =>
    intro l done i j
    unfold dirInner
    split
    · exact ⟨rfl, rfl⟩
    · obtain ⟨h1, h2⟩ := ih (swapL l i j) (done.set j true) i (rule.getD j 0)
      rw [h1, h2, length_swapL, List.length_set]
      exact ⟨rfl, rfl⟩

theorem dirInner_perm (rule : List Nat) :
    ∀ fuel (l : List α) done i j, (dirInner rule fuel l done i j).1.Perm l := by
  intro fuel
  induction fuel with
  | zero => intro l done i j; exact List.Perm.refl l
  | succ fuel ih =>
    intro l done i j
    unfold dirInner
    split
    · exact List.Perm.refl l
    · exact (ih _ _ _ _).trans (swapL_perm' l i j)

theorem invInner_lengths (rule : List Nat) :
    ∀ fuel (l : List α) done j,
      (invInner rule fuel l done j).1.length = l.length ∧
      (invInner rule fuel l done j).2.length = done.length := by
  intro fuel
  induction fuel with
  | zero => intro l done j; exact ⟨rfl, rfl⟩
  | succ fuel ih =>
    intro l done j
    unfold invInner
    split
    · exact ⟨rfl, rfl⟩
    · obtain ⟨h1, h2⟩ := ih (swapL l j (rule.getD j 0)) (done.set j true) (rule.getD j 0)
      rw [h1, h2, length_swapL, List.length_set]
      exact ⟨rfl, rfl⟩

theorem invInner_perm (rule : List Nat) :
    ∀ fuel (l : List α) done j, (invInner rule fuel l done j).1.Perm l := by
  intro fuel
  induction fuel with
  | zero => intro l done j; exact List.Perm.refl l
  | succ fuel ih =>
    intro l done j
    unfold invInner
    split
    · exact List.Perm.refl l
    · exact (ih _ _ _).trans (swapL_perm' l _ _)

theorem sbrGo_perm (rule : List Nat) (length : Nat) :
    ∀ m (s : List α × List Bool), (sbrGo rule length m s).1.Perm s.1 := by
  intro m
  induction m with
  | zero => intro s; exact List.Perm.refl s.1
  | succ m ih =>
    intro s
    rw [sbrGo]
    unfold sbrStep
    split
    · exact ih s
    · exact (dirInner_perm _ _ _ _ _ _).trans (ih s)

theorem sbrdGo_perm (rule : List Nat) (length : Nat) :
    ∀ m (s : List α × List Bool), (sbrdGo rule length m s).1.Perm s.1 := by
  intro m
  induction m with
  | zero => intro s; exact List.Perm.refl s.1
  | succ m ih =>
    intro s
    rw [sbrdGo]
    unfold sbrdStep
    split
    · exact ih s
    · exact (dirInner_perm _ _ _ _ _ _).trans (ih s)

theorem sbriGo_perm (rule : List Nat) (length : Nat) :
    ∀ m (s : List α × List Bool), (sbriGo rule length m s).1.Perm s.1 := by
  intro m
  induction m with
  | zero => intro s; exact List.Perm.refl s.1
  | succ m ih =>
    intro s
    rw [sbriGo]
    unfold sbriStep
    split
    · exact ih s
    · exact (invInner_perm _ _ _ _ _).trans (ih s)

theorem sortByRule_perm (length : Nat) (rule : List Nat) (l : List α) :
    (sortByRule length rule l).Perm l := sbrGo_perm rule length length _

theorem sortByRuleDirect_perm (length : Nat) (rule : List Nat) (l : List α) :
    (sortByRuleDirect length rule l).Perm l := sbrdGo_perm rule length length _

theorem sortByRuleInverse_perm (length : Nat) (rule : List Nat) (l : List α) :
    (sortByRuleInverse length rule l).Perm l := sbriGo_perm rule length length _

theorem map_swapL (f : α → β) (l : List α) (i j : Nat) :
    (swapL l i j).map f = swapL (l.map f) i j := by
  unfold swapL
  by_cases h : i < l.length ∧ j < l.length
  · rw [dif_pos h, dif_pos (by rw [List.length_map]; exact h)]
    simp [List.map_set, List.getElem_map]
  · rw [dif_neg h, dif_neg (by rw [List.length_map]; exact h)]

theorem dirInner_map (f : α → β) (rule : List Nat) :
    ∀ fuel (l : List α) done i j,
      dirInner rule fuel (l.map f) done i j =
        ((dirInner rule fuel l done i j).1.map f,
          (dirInner rule fuel l done i j).2) := by
  intro fuel
  induction fuel with
  | zero => intro l done i j; rfl
  | succ fuel ih =>
    intro l done i j
    unfold dirInner
    split
    · rfl
    · rw [← map_swapL, ih]

theorem sbrGo_map (f : α → β) (rule : List Nat) (length : Nat) :
    ∀ m (l : List α) (done : List Bool),
      sbrGo rule length m (l.map f, done) =
        ((sbrGo rule length m (l, done)).1.map f,
          (sbrGo rule length m (l, done)).2) := by
  intro m
  induction m with
  | zero => intro l done; rfl
  | succ m ih =>
    intro l done
    rw [sbrGo, sbrGo, ih]
    unfold sbrStep
    dsimp only
    cases hcond : (sbrGo rule length m (l, done)).2.getD m false with
    | true => simp [hcond]
    | false => simp [hcond, dirInner_map]

theorem sortByRule_map (f : α → β) (length : Nat) (rule : List Nat) (l : List α) :
    sortByRule length rule (l.map f) = (sortByRule length rule l).map f := by
  unfold sortByRule
  rw [sbrGo_map]

theorem map_getD_range (xs : List α) (d : α) :
    (List.range xs.length).map (fun t => xs.getD t d) = xs := by
  apply List.ext_getElem?
  intro n
  rw [List.getElem?_map]
  by_cases h : n < xs.length
  · rw [List.getElem?_eq_getElem (by rw [List.length_range]; exact h),
      List.getElem?_eq_getElem h]
    simp only [List.getElem_range, Option.map_some']
    rw [List.getD_eq_getElem _ _ h]
  · rw [List.getElem?_eq_none (by rw [List.length_range]; omega),
      List.getElem?_eq_none (by omega)]
    rfl

theorem ruleFn_lt {rule : List Nat} {n : Nat} (hperm : rule.Perm (List.range n))
    {t : Nat} (ht : t < n) : ruleFn rule t < n := by
  have hlen : rule.length = n := by
    have := hperm.length_eq
    rwa [List.length_range] at this
  have hmem : ruleFn rule t ∈ rule := by
    unfold ruleFn
    rw [List.getD_eq_getElem _ _ (by omega)]
    exact List.getElem_mem _
  exact List.mem_range.mp (hperm.subset hmem)

theorem ruleFn_inj {rule : List Nat} {n : Nat} (hperm : rule.Perm (List.range n))
    {a b : Nat} (ha : a < n) (hb : b < n) (h : ruleFn rule a = ruleFn rule b) :
    a = b := by
  have hlen : rule.length = n := by
    have := hperm.length_eq
    rwa [List.length_range] at this
  have hnd : rule.Nodup := hperm.nodup_iff.mpr (List.nodup_range n)
  have ha' : a < rule.length := by omega
  have hb' : b < rule.length := by omega
  unfold ruleFn at h
  rw [List.getD_eq_getElem _ _ ha', List.getD_eq_getElem _ _ hb'] at h
  exact (hnd.getElem_inj_iff).mp h

theorem iter_lt {rule : List Nat} {n : Nat} (hperm : rule.Perm (List.range n)) :
    ∀ m {t}, t < n → (ruleFn rule)^[m] t < n := by
  intro m
  induction m with
  | zero => intro t ht; exact ht
  | succ m ih =>
    intro t ht
    rw [Function.iterate_succ_apply']
    exact ruleFn_lt hperm (ih ht)

theorem iter_peel {rule : List Nat} {n : Nat} (hperm : rule.Perm (List.range n))
    {i : Nat} (hi : i < n) :
    ∀ a b, a ≤ b → (ruleFn rule)^[a] i = (ruleFn rule)^[b] i →
      (ruleFn rule)^[b - a] i = i := by
  intro a
  induction a with
  | zero =>
    intro b _ h
    simpa using h.symm
  | succ a ih =>
    intro b hab h
    have hb1 : 1 ≤ b := by omega
    have hb : b = (b - 1) + 1 := by omega
    rw [hb, Function.iterate_succ_apply', Function.iterate_succ_apply'] at h
    have h' := ruleFn_inj hperm (iter_lt hperm a hi) (iter_lt hperm (b - 1) hi) h
    have := ih (b - 1) (by omega) h'
    have e : b - (a + 1) = (b - 1) - a := by omega
    rw [e]
    exact this

theorem exists_period {rule : List Nat} {n : Nat} (hperm : rule.Perm (List.range n))
    {i : Nat} (hi : i < n) :
    ∃ k, 0 < k ∧ k ≤ n ∧ (ruleFn rule)^[k] i = i := by
  have hmaps : ∀ a ∈ Finset.range (n + 1),
      (ruleFn rule)^[a] i ∈ Finset.range n := by
    intro a _
    exact Finset.mem_range.mpr (iter_lt hperm a hi)
  have hcard : (Finset.range n).card < (Finset.range (n + 1)).card := by
    simp
  obtain ⟨a, ha, b, hb, hab, heq⟩ :=
    Finset.exists_ne_map_eq_of_card_lt_of_maps_to hcard hmaps
  rw [Finset.mem_range] at ha hb
  rcases Nat.lt_or_ge a b with hlt | hge
  · exact ⟨b - a, by omega, by omega, iter_peel hperm hi a b (by omega) heq⟩
  · have hlt : b < a := by omega
    exact ⟨a - b, by omega, by omega, iter_peel hperm hi b a (by omega) heq.symm⟩

theorem mem_periodicPts_of_perm {rule : List Nat} {n : Nat}
    (hperm : rule.Perm (List.range n)) {i : Nat} (hi : i < n) :
    i ∈ Function.periodicPts (ruleFn rule) := by
  obtain ⟨k, hk0, _, hk⟩ := exists_period hperm hi
  exact Function.mem_periodicPts.mpr ⟨k, hk0, hk⟩

theorem per_pos {rule : List Nat} {n : Nat} (hperm : rule.Perm (List.range n))
    {i : Nat} (hi : i < n) : 0 < Function.minimalPeriod (ruleFn rule) i :=
  Function.minimalPeriod_pos_of_mem_periodicPts (mem_periodicPts_of_perm hperm hi)

theorem per_le {rule : List Nat} {n : Nat} (hperm : rule.Perm (List.range n))
    {i : Nat} (hi : i < n) : Function.minimalPeriod (ruleFn rule) i ≤ n := by
  obtain ⟨k, hk0, hkn, hk⟩ := exists_period hperm hi
  exact le_trans (Function.IsPeriodicPt.minimalPeriod_le hk0 hk) hkn

theorem inOrb_refl (rule : List Nat) (i : Nat) : inOrb rule i i := ⟨0, rfl⟩

theorem inOrb_iter (rule : List Nat) (i t : Nat) :
    inOrb rule i ((ruleFn rule)^[t] i) := ⟨t, rfl⟩

theorem inOrb_trans {rule : List Nat} {i p q : Nat}
    (h1 : inOrb rule i p) (h2 : inOrb rule p q) : inOrb rule i q := by
  obtain ⟨t1, h1⟩ := h1
  obtain ⟨t2, h2⟩ := h2
  exact ⟨t2 + t1, by rw [Function.iterate_add_apply, h1, h2]⟩

theorem inOrb_lt {rule : List Nat} {n : Nat} (hperm : rule.Perm (List.range n))
    {i p : Nat} (hi : i < n) (h : inOrb rule i p) : p < n := by
  obtain ⟨t, ht⟩ := h
  rw [← ht]
  exact iter_lt hperm t hi

theorem inOrb_bounded {rule : List Nat} {n : Nat} (hperm : rule.Perm (List.range n))
    {i p : Nat} (hi : i < n) (h : inOrb rule i p) :
    ∃ t, t < Function.minimalPeriod (ruleFn rule) i ∧ (ruleFn rule)^[t] i = p := by
  obtain ⟨t, ht⟩ := h
  refine ⟨t % Function.minimalPeriod (ruleFn rule) i,
    Nat.mod_lt _ (per_pos hperm hi), ?_⟩
  rw [Function.iterate_mod_minimalPeriod_eq]
  exact ht

theorem inOrb_symm {rule : List Nat} {n : Nat} (hperm : rule.Perm (List.range n))
    {i p : Nat} (hi : i < n) (h : inOrb rule i p) : inOrb rule p i := by
  obtain ⟨t, htlt, ht⟩ := inOrb_bounded hperm hi h
  refine ⟨Function.minimalPeriod (ruleFn rule) i - t, ?_⟩
  rw [← ht, ← Function.iterate_add_apply]
  have e : Function.minimalPeriod (ruleFn rule) i - t + t
      = Function.minimalPeriod (ruleFn rule) i := by omega
  rw [e]
  exact Function.iterate_minimalPeriod

theorem foldr_min_le_mem {xs : List Nat} {x : Nat} (h : x ∈ xs) (a : Nat) :
    xs.foldr min a ≤ x := by
  induction xs with
  | nil => exact absurd h (List.not_mem_nil x)
  | cons y ys ih =>
    rcases List.mem_cons.mp h with h1 | h2
    · subst h1
      exact min_le_left _ _
    · exact le_trans (min_le_right _ _) (ih h2)

theorem foldr_min_le_init (xs : List Nat) (a : Nat) : xs.foldr min a ≤ a := by
  induction xs with
  | nil => exact le_refl a
  | cons y ys ih => exact le_trans (min_le_right _ _) ih

theorem foldr_min_mem (xs : List Nat) (a : Nat) :
    xs.foldr min a = a ∨ xs.foldr min a ∈ xs := by
  induction xs with
  | nil => exact Or.inl rfl
  | cons y ys ih =>
    rcases le_or_lt y (ys.foldr min a) with h | h
    · right
      rw [List.foldr_cons, min_eq_left h]
      exact List.mem_cons_self y ys
    · rcases ih with h1 | h2
      · left
        rw [List.foldr_cons, min_eq_right (le_of_lt h), h1]
      · right
        rw [List.foldr_cons, min_eq_right (le_of_lt h)]
        exact List.mem_cons_of_mem y h2

theorem minOrb_le_self (rule : List Nat) (n i : Nat) : minOrb rule n i ≤ i :=
  foldr_min_le_init _ i

theorem minOrb_le {rule : List Nat} {n : Nat} (hperm : rule.Perm (List.range n))
    {i p : Nat} (hi : i < n) (h : inOrb rule i p) : minOrb rule n i ≤ p := by
  obtain ⟨t, htlt, ht⟩ := inOrb_bounded hperm hi h
  have htn : t < n + 1 := by
    have := per_le hperm hi
    omega
  apply foldr_min_le_mem
  rw [← ht]
  exact List.mem_map_of_mem _ (List.mem_range.mpr htn)

theorem inOrb_minOrb (rule : List Nat) (n i : Nat) :
    inOrb rule i (minOrb rule n i) := by
  rcases foldr_min_mem ((List.range (n + 1)).map fun t => (ruleFn rule)^[t] i) i
      with h | h
  · rw [minOrb, h]
    exact inOrb_refl rule i
  · obtain ⟨t, _, ht⟩ := List.mem_map.mp h
    rw [minOrb, ← ht]
    exact inOrb_iter rule i t

theorem minOrb_lt {rule : List Nat} {n : Nat} (hperm : rule.Perm (List.range n))
    {i : Nat} (hi : i < n) : minOrb rule n i < n :=
  inOrb_lt hperm hi (inOrb_minOrb rule n i)

theorem minOrb_eq_of_inOrb {rule : List Nat} {n : Nat}
    (hperm : rule.Perm (List.range n)) {i p : Nat} (hi : i < n)
    (h : inOrb rule i p) : minOrb rule n p = minOrb rule n i := by
  have hp : p < n := inOrb_lt hperm hi h
  apply le_antisymm
  · exact minOrb_le hperm hp (inOrb_trans (inOrb_symm hperm hi h) (inOrb_minOrb rule n i))
  · exact minOrb_le hperm hi (inOrb_trans h (inOrb_minOrb rule n p))

theorem getD_set_self_of_lt {done : List Bool} {p : Nat} (hp : p < done.length)
    (v : Bool) : (done.set p v).getD p false = v := by
  rw [List.getD_eq_getElem?_getD, List.getElem?_set_self hp]
  rfl

theorem getD_set_ne' {done : List Bool} {p q : Nat} (h : q ≠ p) (v : Bool) :
    (done.set p v).getD q false = done.getD q false := by
  rw [List.getD_eq_getElem?_getD, List.getElem?_set_ne (fun e => h e.symm),
    ← List.getD_eq_getElem?_getD]

theorem dirInner_walk {rule : List Nat} {n : Nat} {α : Type}
    (hperm : rule.Perm (List.range n))
    {i : Nat} (hi : i < n) {k : Nat} (hk2 : 2 ≤ k)
    (hiterk : (ruleFn rule)^[k] i = i)
    (hinjk : ∀ a b, a < k → b < k →
      (ruleFn rule)^[a] i = (ruleFn rule)^[b] i → a = b) :
    ∀ c m, m + c = k → 1 ≤ m →
    ∀ (l : List α) (done : List Bool) (fuel : Nat),
      l.length = n → done.length = n → c + 1 ≤ fuel →
      (∀ t, t < k →
        (done.getD ((ruleFn rule)^[t] i) false = true ↔ 1 ≤ t ∧ t ≤ m - 1)) →
      ((dirInner rule fuel l done i ((ruleFn rule)^[m] i)).1.length = n ∧
        (dirInner rule fuel l done i ((ruleFn rule)^[m] i)).2.length = n) ∧
      (m < k → (dirInner rule fuel l done i ((ruleFn rule)^[m] i)).1[i]?
          = l[(ruleFn rule)^[k - 1] i]?) ∧
      (m < k → (dirInner rule fuel l done i
          ((ruleFn rule)^[m] i)).1[(ruleFn rule)^[m] i]? = l[i]?) ∧
      (∀ t, m + 1 ≤ t → t ≤ k - 1 →
        (dirInner rule fuel l done i ((ruleFn rule)^[m] i)).1[(ruleFn rule)^[t] i]?
          = l[(ruleFn rule)^[t - 1] i]?) ∧
      (∀ p, (m < k → p ≠ i) → (∀ t, m ≤ t → t ≤ k - 1 → p ≠ (ruleFn rule)^[t] i) →
        (dirInner rule fuel l done i ((ruleFn rule)^[m] i)).1[p]? = l[p]?) ∧
      (∀ t, t < k →
        ((dirInner rule fuel l done i ((ruleFn rule)^[m] i)).2.getD
            ((ruleFn rule)^[t] i) false = true ↔ 1 ≤ t ∧ t ≤ k - 1)) ∧
      (∀ p, (∀ t, t < k → p ≠ (ruleFn rule)^[t] i) →
        (dirInner rule fuel l done i ((ruleFn rule)^[m] i)).2.getD p false
          = done.getD p false) := by
  intro c
  induction c with
  | zero =>
    intro m hmc hm1 l done fuel hl hd hfuel hchar
    have hmk : m = k := by omega
    subst hmk
    obtain ⟨f, rfl⟩ : ∃ f, fuel = f + 1 := ⟨fuel - 1, by omega⟩
    have hstep : rule.getD ((ruleFn rule)^[m] i) 0 = (ruleFn rule)^[m + 1] i := by
      rw [Function.iterate_succ_apply']
      rfl
    have hiter0 : (ruleFn rule)^[m] i = i := hiterk
    have hσ1 : rule.getD ((ruleFn rule)^[m] i) 0 = (ruleFn rule)^[1] i := by
      rw [hiter0]
      rfl
    have hcond : done.getD (rule.getD ((ruleFn rule)^[m] i) 0) false = true := by
      rw [hσ1]
      exact (hchar 1 (by omega)).mpr (by omega)
    rw [dirInner, hcond]
    simp only [if_true]
    refine ⟨⟨hl, hd⟩, ?_, ?_, ?_, ?_, ?_, ?_⟩
    · intro hmm; omega
    · intro hmm; omega
    · intro t ht1 ht2; omega
    · intro p _ _; trivial
    · intro t ht
      have := hchar t ht
      constructor
      · intro hh; have := this.mp hh; omega
      · intro hh; exact this.mpr (by omega)
    · intro p _; trivial
  | succ c ih =>
    intro m hmc hm1 l done fuel hl hd hfuel hchar
    have hmk : m < k := by omega
    obtain ⟨f, rfl⟩ : ∃ f, fuel = f + 1 := ⟨fuel - 1, by omega⟩
    have hσm_lt : (ruleFn rule)^[m] i < n := iter_lt hperm m hi
    have hσstep : rule.getD ((ruleFn rule)^[m] i) 0 = (ruleFn rule)^[m + 1] i := by
      rw [Function.iterate_succ_apply']
      rfl
    have hcond : done.getD (rule.getD ((ruleFn rule)^[m] i) 0) false = false := by
      rw [hσstep]
      rcases Nat.lt_or_ge (m + 1) k with hc1 | hc2
      · cases hb : done.getD ((ruleFn rule)^[m + 1] i) false with
        | false => rfl
        | true =>
          exfalso
          have := (hchar (m + 1) hc1).mp hb
          omega
      · have hm1k : m + 1 = k := by omega
        have heq0 : (ruleFn rule)^[m + 1] i = (ruleFn rule)^[0] i := by
          rw [hm1k, hiterk]
          rfl
        rw [heq0]
        cases hb : done.getD ((ruleFn rule)^[0] i) false with
        | false => rfl
        | true =>
          exfalso
          have := (hchar 0 (by omega)).mp hb
          omega
    rw [dirInner, hcond]
    simp only [Bool.false_eq_true, if_false]
    rw [hσstep]
    have hne_im : i ≠ (ruleFn rule)^[m] i := by
      intro h
      have : (ruleFn rule)^[0] i = (ruleFn rule)^[m] i := h
      have := hinjk 0 m (by omega) (by omega) this
      omega
    have hchar' : ∀ t, t < k →
        ((done.set ((ruleFn rule)^[m] i) true).getD ((ruleFn rule)^[t] i) false = true
          ↔ 1 ≤ t ∧ t ≤ (m + 1) - 1) := by
      intro t ht
      by_cases htm : t = m
      · subst htm
        rw [getD_set_self_of_lt (by omega)]
        simp only [true_iff]
        omega
      · have hne : (ruleFn rule)^[t] i ≠ (ruleFn rule)^[m] i := by
          intro h
          exact htm (hinjk t m ht (by omega) h)
        rw [getD_set_ne' hne]
        rw [hchar t ht]
        omega
    have hIH := ih (m + 1) (by omega) (by omega) (swapL l i ((ruleFn rule)^[m] i))
      (done.set ((ruleFn rule)^[m] i) true) f
      (by rw [length_swapL]; exact hl) (by rw [List.length_set]; exact hd)
      (by omega) hchar'
    obtain ⟨hlen2, hA, hB, hC, hD, hE, hF⟩ := hIH
    have swval : ∀ x : Nat,
        (swapL l i ((ruleFn rule)^[m] i))[x]?
          = if x = (ruleFn rule)^[m] i then l[i]?
            else if x = i then l[(ruleFn rule)^[m] i]? else l[x]? :=
      fun x => getElem?_swapL l (by omega) (by omega) x
    refine ⟨hlen2, ?_, ?_, ?_, ?_, hE, ?_⟩
    · -- value at position i
      intro _
      rcases Nat.lt_or_ge (m + 1) k with hc1 | hc2
      · rw [hA hc1, swval]
        have h1 : (ruleFn rule)^[k - 1] i ≠ (ruleFn rule)^[m] i := by
          intro h
          have := hinjk (k - 1) m (by omega) (by omega) h
          omega
        have h2 : (ruleFn rule)^[k - 1] i ≠ i := by
          intro h
          have : (ruleFn rule)^[k - 1] i = (ruleFn rule)^[0] i := h
          have := hinjk (k - 1) 0 (by omega) (by omega) this
          omega
        rw [if_neg h1, if_neg h2]
      · have hguard : m + 1 < k → i ≠ i := fun hcon => absurd hcon (by omega)
        have hno : ∀ t, m + 1 ≤ t → t ≤ k - 1 → i ≠ (ruleFn rule)^[t] i := by
          intro t ht1 ht2 h
          have h0 : (ruleFn rule)^[0] i = (ruleFn rule)^[t] i := h
          have := hinjk 0 t (by omega) (by omega) h0
          omega
        have hD' := hD i hguard hno
        rw [hD', swval]
        have hmeq : m = k - 1 := by omega
        rw [if_neg hne_im, if_pos rfl, hmeq]
    · -- value at entry position σ^[m] i
      intro _
      rcases Nat.lt_or_ge (m + 1) k with hc1 | hc2
      · have hno : ∀ t, m + 1 ≤ t → t ≤ k - 1 →
            (ruleFn rule)^[m] i ≠ (ruleFn rule)^[t] i := by
          intro t ht1 ht2 h
          have := hinjk m t (by omega) (by omega) h
          omega
        have hD' := hD ((ruleFn rule)^[m] i) (fun _ => fun h => hne_im h.symm) hno
        rw [hD', swval, if_pos rfl]
      · have hguard : m + 1 < k → (ruleFn rule)^[m] i ≠ i :=
          fun hcon => absurd hcon (by omega)
        have hno : ∀ t, m + 1 ≤ t → t ≤ k - 1 →
            (ruleFn rule)^[m] i ≠ (ruleFn rule)^[t] i := by
          intro t ht1 ht2
          omega
        have hD' := hD ((ruleFn rule)^[m] i) hguard hno
        rw [hD', swval, if_pos rfl]
    · -- values along the walked positions
      intro t ht1 ht2
      by_cases htm : t = m + 1
      · subst htm
        rw [hB (by omega), swval, if_neg hne_im, if_pos rfl]
        have e : m + 1 - 1 = m := by omega
        rw [e]
      · rw [hC t (by omega) ht2, swval]
        have h1 : (ruleFn rule)^[t - 1] i ≠ (ruleFn rule)^[m] i := by
          intro h
          have := hinjk (t - 1) m (by omega) (by omega) h
          omega
        have h2 : (ruleFn rule)^[t - 1] i ≠ i := by
          intro h
          have : (ruleFn rule)^[t - 1] i = (ruleFn rule)^[0] i := h
          have := hinjk (t - 1) 0 (by omega) (by omega) this
          omega
        rw [if_neg h1, if_neg h2]
    · -- untouched positions
      intro p hpi hpt
      have hD' := hD p (fun _ => hpi hmk) (fun t ht1 ht2 => hpt t (by omega) ht2)
      rw [hD', swval, if_neg (hpt m (le_refl m) (by omega)), if_neg (hpi hmk)]
    · -- done entries away from the orbit
      intro p hp
      rw [hF p hp, getD_set_ne' (hp m (by omega))]

theorem swapL_self (l : List α) (i : Nat) : swapL l i i = l := by
  unfold swapL
  split
  · next h => rw [List.set_set, set_get_self_eq]
  · rfl

theorem getD_replicate_false (n p : Nat) :
    (List.replicate n false).getD p false = false := by
  rw [List.getD_eq_getElem?_getD]
  by_cases h : p < n
  · rw [List.getElem?_eq_getElem (by simpa using h)]
    simp [List.getElem_replicate]
  · rw [List.getElem?_eq_none (by simpa using h)]
    rfl

theorem bool_false_of_iff {b : Bool} {P : Prop} (h : b = true ↔ P) (hn : ¬P) :
    b = false := by
  cases b with
  | false => rfl
  | true => exact absurd (h.mp rfl) hn

theorem dirInner_fix {rule : List Nat} {α : Type} {i : Nat} {done : List Bool}
    (hfix : ruleFn rule i = i) (hd : i < done.length)
    (hdone : done.getD i false = false) (l : List α) {fuel : Nat}
    (hfuel : 2 ≤ fuel) :
    dirInner rule fuel l done i (rule.getD i 0) = (l, done.set i true) := by
  obtain ⟨f, rfl⟩ : ∃ f, fuel = f + 2 := ⟨fuel - 2, by omega⟩
  have hri : rule.getD i 0 = i := hfix
  rw [hri]
  rw [dirInner, hri, hdone]
  simp only [Bool.false_eq_true, if_false]
  rw [swapL_self, dirInner, hri, getD_set_self_of_lt hd]
  simp only [if_true]

theorem inOrb_fix {rule : List Nat} {i p : Nat} (hfix : ruleFn rule i = i)
    (h : inOrb rule i p) : p = i := by
  obtain ⟨t, ht⟩ := h
  rw [← ht]
  clear ht
  induction t with
  | zero => rfl
  | succ t ih => rw [Function.iterate_succ_apply', ih, hfix]

theorem iterate_one_eq {rule : List Nat} (i : Nat) :
    (ruleFn rule)^[1] i = ruleFn rule i := rfl

theorem sbrdGo_invariant {rule : List Nat} {n : Nat} {α : Type}
    (hperm : rule.Perm (List.range n)) (l₀ : List α) (hl₀ : l₀.length = n) :
    ∀ i₀, i₀ ≤ n →
      (sbrdGo rule n i₀ (l₀, List.replicate n false)).1.length = n ∧
      (sbrdGo rule n i₀ (l₀, List.replicate n false)).2.length = n ∧
      (∀ p, p < n → minOrb rule n p < i₀ →
        (sbrdGo rule n i₀ (l₀, List.replicate n false)).1[ruleFn rule p]? = l₀[p]?) ∧
      (∀ p, p < n → ¬ minOrb rule n p < i₀ →
        (sbrdGo rule n i₀ (l₀, List.replicate n false)).1[p]? = l₀[p]?) ∧
      (∀ p, p < n →
        ((sbrdGo rule n i₀ (l₀, List.replicate n false)).2.getD p false = true ↔
          (minOrb rule n p < i₀ ∧ (ruleFn rule p = p ∨ p ≠ minOrb rule n p)))) := by
  intro i₀
  induction i₀ with
  | zero =>
    intro _
    refine ⟨hl₀, by simp [sbrdGo], ?_, ?_, ?_⟩
    · intro p hp hcontra
      omega
    · intro p hp _
      rfl
    · intro p hp
      rw [show (sbrdGo rule n 0 (l₀, List.replicate n false)).2
          = List.replicate n false from rfl, getD_replicate_false]
      constructor
      · intro h
        simp at h
      · rintro ⟨h1, _⟩
        omega
  | succ i₀ ih =>
    intro hle
    have hi₀n : i₀ < n := by omega
    obtain ⟨hlen1, hlen2, hP1, hP2, hP3⟩ := ih (by omega)
    rw [sbrdGo]
    set s := sbrdGo rule n i₀ (l₀, List.replicate n false) with hs
    unfold sbrdStep
    cases hcond : s.2.getD i₀ false with
    | true =>
      simp only [hcond, if_true]
      have hproc := (hP3 i₀ hi₀n).mp hcond
      have hnoteq : ∀ p, p < n → minOrb rule n p ≠ i₀ := by
        intro p hp heq
        have h1 : inOrb rule p i₀ := heq ▸ inOrb_minOrb rule n p
        have h2 : minOrb rule n i₀ = minOrb rule n p :=
          minOrb_eq_of_inOrb hperm hp h1
        rw [heq] at h2
        omega
      refine ⟨hlen1, hlen2, ?_, ?_, ?_⟩
      · intro p hp hm
        have := hnoteq p hp
        exact hP1 p hp (by omega)
      · intro p hp hm
        exact hP2 p hp (by omega)
      · intro p hp
        rw [hP3 p hp]
        have := hnoteq p hp
        constructor
        · rintro ⟨h1, h2⟩
          exact ⟨by omega, h2⟩
        · rintro ⟨h1, h2⟩
          exact ⟨by omega, h2⟩
    | false =>
      simp only [hcond, Bool.false_eq_true, if_false]
      have hfresh : minOrb rule n i₀ = i₀ := by
        have hle' : minOrb rule n i₀ ≤ i₀ := minOrb_le_self rule n i₀
        rcases Nat.lt_or_ge (minOrb rule n i₀) i₀ with hlt | hge
        · exfalso
          have hmark : s.2.getD i₀ false = true :=
            (hP3 i₀ hi₀n).mpr ⟨hlt, Or.inr (by omega)⟩
          rw [hcond] at hmark
          simp at hmark
        · omega
      have hnotorb : ∀ q, q < n → minOrb rule n q ≠ i₀ →
          ∀ t, (ruleFn rule)^[t] i₀ ≠ q := by
        intro q hq hne t heq
        have h1 : inOrb rule i₀ q := ⟨t, heq⟩
        have h2 := minOrb_eq_of_inOrb hperm hi₀n h1
        rw [hfresh] at h2
        exact hne h2
      have horbmin : ∀ t, minOrb rule n ((ruleFn rule)^[t] i₀) = i₀ := by
        intro t
        have := minOrb_eq_of_inOrb hperm hi₀n (inOrb_iter rule i₀ t)
        rw [this, hfresh]
      by_cases hkfix : ruleFn rule i₀ = i₀
      · -- fixed point: the walk is a no-op that marks i₀
        rw [dirInner_fix hkfix (by rw [hlen2]; exact hi₀n) hcond s.1 (by omega)]
        have horb_eq : ∀ p, p < n → minOrb rule n p = i₀ → p = i₀ := by
          intro p hp heq
          have h1 : inOrb rule p i₀ := heq ▸ inOrb_minOrb rule n p
          exact inOrb_fix hkfix (inOrb_symm hperm hp h1)
        refine ⟨hlen1, by rw [List.length_set]; exact hlen2, ?_, ?_, ?_⟩
        · intro p hp hm
          rcases Nat.lt_or_ge (minOrb rule n p) i₀ with hlt | hge
          · exact hP1 p hp hlt
          · have heq : minOrb rule n p = i₀ := by omega
            have hpi : p = i₀ := horb_eq p hp heq
            subst hpi
            rw [show ruleFn rule p = p from hkfix]
            exact hP2 p hp (by omega)
        · intro p hp hm
          exact hP2 p hp (by omega)
        · intro p hp
          by_cases hpi : p = i₀
          · subst hpi
            rw [getD_set_self_of_lt (by rw [hlen2]; exact hi₀n)]
            constructor
            · intro _
              exact ⟨by omega, Or.inl hkfix⟩
            · intro _
              rfl
          · rw [getD_set_ne' hpi, hP3 p hp]
            have : minOrb rule n p ≠ i₀ := fun h => hpi (horb_eq p hp h)
            constructor
            · rintro ⟨h1, h2⟩
              exact ⟨by omega, h2⟩
            · rintro ⟨h1, h2⟩
              exact ⟨by omega, h2⟩
      · -- a genuine cycle of length at least 2
        have hk1 : 1 ≤ Function.minimalPeriod (ruleFn rule) i₀ := per_pos hperm hi₀n
        have hk2 : 2 ≤ Function.minimalPeriod (ruleFn rule) i₀ := by
          rcases Nat.lt_or_ge (Function.minimalPeriod (ruleFn rule) i₀) 2 with h2 | h2
          · exfalso
            have hkeq : Function.minimalPeriod (ruleFn rule) i₀ = 1 := by omega
            have hit := Function.iterate_minimalPeriod (f := ruleFn rule) (x := i₀)
            rw [hkeq, iterate_one_eq] at hit
            exact hkfix hit
          · exact h2
        have hinj : ∀ a b, a < Function.minimalPeriod (ruleFn rule) i₀ →
            b < Function.minimalPeriod (ruleFn rule) i₀ →
            (ruleFn rule)^[a] i₀ = (ruleFn rule)^[b] i₀ → a = b := by
          intro a b ha hb h
          exact Function.iterate_injOn_Iio_minimalPeriod ha hb h
        have hchar0 : ∀ t, t < Function.minimalPeriod (ruleFn rule) i₀ →
            (s.2.getD ((ruleFn rule)^[t] i₀) false = true ↔ 1 ≤ t ∧ t ≤ 1 - 1) := by
          intro t ht
          have hlt : (ruleFn rule)^[t] i₀ < n := iter_lt hperm t hi₀n
          have hfalse : s.2.getD ((ruleFn rule)^[t] i₀) false = false := by
            apply bool_false_of_iff (hP3 _ hlt)
            rintro ⟨h1, _⟩
            rw [horbmin t] at h1
            omega
          rw [hfalse]
          constructor
          · intro h
            simp at h
          · rintro ⟨h1, h2⟩
            omega
        have hwalk := dirInner_walk hperm hi₀n hk2
          (Function.iterate_minimalPeriod) hinj
          (Function.minimalPeriod (ruleFn rule) i₀ - 1) 1 (by omega) (by omega)
          s.1 s.2 (n + 1) hlen1 hlen2
          (by have := per_le hperm hi₀n; omega) hchar0
        rw [show rule.getD i₀ 0 = (ruleFn rule)^[1] i₀ from rfl]
        obtain ⟨⟨hwlen1, hwlen2⟩, hwA, hwB, hwC, hwD, hwE, hwF⟩ := hwalk
        have hkk : 1 ≤ Function.minimalPeriod (ruleFn rule) i₀ := hk1
        refine ⟨hwlen1, hwlen2, ?_, ?_, ?_⟩
        · -- P1 at i₀ + 1
          intro p hp hm
          rcases Nat.lt_or_ge (minOrb rule n p) i₀ with hlt | hge
          · -- previously processed orbit: untouched
            have hσp : ruleFn rule p < n := ruleFn_lt hperm hp
            have hσporb : minOrb rule n (ruleFn rule p) = minOrb rule n p :=
              minOrb_eq_of_inOrb hperm hp ⟨1, rfl⟩
            have hD' := hwD (ruleFn rule p)
              (fun _ => fun h => hnotorb _ hσp (by omega) 0 h.symm)
              (fun t _ _ h => hnotorb _ hσp (by omega) t h.symm)
            rw [hD']
            exact hP1 p hp hlt
          · -- p lies on the freshly processed cycle
            have heq : minOrb rule n p = i₀ := by omega
            have h1 : inOrb rule p i₀ := heq ▸ inOrb_minOrb rule n p
            have h2 : inOrb rule i₀ p := inOrb_symm hperm hp h1
            obtain ⟨t, htk, htp⟩ := inOrb_bounded hperm hi₀n h2
            rcases Nat.eq_zero_or_pos t with ht0 | htpos
            · -- p = i₀
              subst ht0
              have hpi : p = i₀ := by
                rw [← htp]
                rfl
              subst hpi
              have := hwB (by omega)
              rw [show ruleFn rule p = (ruleFn rule)^[1] p from rfl]
              rw [this]
              exact hP2 p hp (by omega)
            · -- p is a later element of the fresh cycle
              have hstep : ruleFn rule p = (ruleFn rule)^[t + 1] i₀ := by
                rw [← htp]
                exact (Function.iterate_succ_apply' (ruleFn rule) t i₀).symm
              rcases Nat.lt_or_ge (t + 1) (Function.minimalPeriod (ruleFn rule) i₀)
                  with htmid | htlast
              · -- middle of the cycle
                have hC' := hwC (t + 1) (by omega) (by omega)
                have e : t + 1 - 1 = t := by omega
                rw [e, htp] at hC'
                rw [hstep, hC']
                exact hP2 p hp (by omega)
              · -- the last element: its successor is the cycle entry
                have htk1 : t + 1 = Function.minimalPeriod (ruleFn rule) i₀ := by
                  omega
                have hi0 : ruleFn rule p = i₀ := by
                  rw [hstep, htk1, Function.iterate_minimalPeriod]
                have hA' := hwA (by omega)
                have e : Function.minimalPeriod (ruleFn rule) i₀ - 1 = t := by omega
                rw [e, htp] at hA'
                rw [hi0, hA']
                exact hP2 p hp (by omega)
        · -- P2 at i₀ + 1
          intro p hp hm
          have hne : minOrb rule n p ≠ i₀ := by omega
          have hD' := hwD p
            (fun _ => fun h => hnotorb p hp hne 0 h.symm)
            (fun t _ _ h => hnotorb p hp hne t h.symm)
          rw [hD']
          exact hP2 p hp (by omega)
        · -- P3 at i₀ + 1
          intro p hp
          by_cases hpm : minOrb rule n p = i₀
          · have h1 : inOrb rule p i₀ := hpm ▸ inOrb_minOrb rule n p
            have h2 : inOrb rule i₀ p := inOrb_symm hperm hp h1
            obtain ⟨t, htk, htp⟩ := inOrb_bounded hperm hi₀n h2
            have hE' := hwE t htk
            rw [htp] at hE'
            rw [hE']
            have hpi₀_iff : p = i₀ ↔ t = 0 := by
              constructor
              · intro h
                apply hinj t 0 htk (by omega)
                rw [htp, h]
                rfl
              · intro h
                rw [← htp, h]
                rfl
            have hnofix : ¬ ruleFn rule p = p := by
              intro hfx
              have hs1 : (ruleFn rule)^[t + 1] i₀ = (ruleFn rule)^[t] i₀ := by
                rw [Function.iterate_succ_apply', htp, hfx]
              rcases Nat.lt_or_ge (t + 1) (Function.minimalPeriod (ruleFn rule) i₀)
                  with hm1 | hm2
              · have := hinj (t + 1) t hm1 htk hs1
                omega
              · have htk1 : t + 1 = Function.minimalPeriod (ruleFn rule) i₀ := by
                  omega
                have hs2 : (ruleFn rule)^[0] i₀
                    = (ruleFn rule)^[t] i₀ := by
                  rw [← hs1, htk1, Function.iterate_minimalPeriod]
                  rfl
                have := hinj 0 t (by omega) htk hs2
                omega
            constructor
            · rintro ⟨h1, _⟩
              refine ⟨by omega, Or.inr ?_⟩
              rw [hpm]
              intro h
              have := hpi₀_iff.mp h
              omega
            · rintro ⟨_, h2⟩
              rcases h2 with hfx | hnem
              · exact absurd hfx hnofix
              · have hpne : p ≠ i₀ := by
                  rw [hpm] at hnem
                  exact hnem
                have ht0 : t ≠ 0 := fun h => hpne (hpi₀_iff.mpr h)
                exact ⟨by omega, by omega⟩
          · have hF' := hwF p (fun t _ => fun h => hnotorb p hp hpm t h.symm)
            rw [hF', hP3 p hp]
            constructor
            · rintro ⟨h1, h2⟩
              exact ⟨by omega, h2⟩
            · rintro ⟨h1, h2⟩
              exact ⟨by omega, h2⟩

theorem sortByRuleDirect_spec {rule : List Nat} {n : Nat} {α : Type}
    (hperm : rule.Perm (List.range n)) (l₀ : List α) (hl₀ : l₀.length = n)
    {p : Nat} (hp : p < n) :
    (sortByRuleDirect n rule l₀)[rule.getD p 0]? = l₀[p]? := by
  obtain ⟨_, _, hP1, _, _⟩ := sbrdGo_invariant hperm l₀ hl₀ n (le_refl n)
  have hm : minOrb rule n p < n := by
    have h1 := minOrb_le_self rule n p
    omega
  exact hP1 p hp hm

theorem invInner_fix {rule : List Nat} {α : Type} {i : Nat} {done : List Bool}
    (hfix : ruleFn rule i = i) (hd : i < done.length)
    (hdone : done.getD i false = false) (l : List α) {fuel : Nat}
    (hfuel : 2 ≤ fuel) :
    invInner rule fuel l done i = (l, done.set i true) := by
  obtain ⟨f, rfl⟩ : ∃ f, fuel = f + 2 := ⟨fuel - 2, by omega⟩
  have hri : rule.getD i 0 = i := hfix
  rw [invInner, hri, hdone]
  simp only [Bool.false_eq_true, if_false]
  rw [swapL_self, invInner, hri, getD_set_self_of_lt hd]
  simp only [if_true]

theorem invInner_walk {rule : List Nat} {n : Nat} {α : Type}
    (hperm : rule.Perm (List.range n))
    {i : Nat} (hi : i < n) {k : Nat} (hk2 : 2 ≤ k)
    (hiterk : (ruleFn rule)^[k] i = i)
    (hinjk : ∀ a b, a < k → b < k →
      (ruleFn rule)^[a] i = (ruleFn rule)^[b] i → a = b) :
    ∀ c m, m + c = k - 1 →
    ∀ (l : List α) (done : List Bool) (fuel : Nat),
      l.length = n → done.length = n → c + 1 ≤ fuel →
      (∀ t, t < k → (done.getD ((ruleFn rule)^[t] i) false = true ↔ t < m)) →
      ((invInner rule fuel l done ((ruleFn rule)^[m] i)).1.length = n ∧
        (invInner rule fuel l done ((ruleFn rule)^[m] i)).2.length = n) ∧
      (∀ t, m ≤ t → t + 1 ≤ k - 1 →
        (invInner rule fuel l done ((ruleFn rule)^[m] i)).1[(ruleFn rule)^[t] i]?
          = l[(ruleFn rule)^[t + 1] i]?) ∧
      (m + 1 ≤ k - 1 →
        (invInner rule fuel l done ((ruleFn rule)^[m] i)).1[(ruleFn rule)^[k - 1] i]?
          = l[(ruleFn rule)^[m] i]?) ∧
      (∀ p, (m + 1 ≤ k - 1 → ∀ t, m ≤ t → t ≤ k - 1 → p ≠ (ruleFn rule)^[t] i) →
        (invInner rule fuel l done ((ruleFn rule)^[m] i)).1[p]? = l[p]?) ∧
      (∀ t, t < k →
        ((invInner rule fuel l done ((ruleFn rule)^[m] i)).2.getD
            ((ruleFn rule)^[t] i) false = true ↔ t + 1 ≤ k - 1)) ∧
      (∀ p, (∀ t, t < k → p ≠ (ruleFn rule)^[t] i) →
        (invInner rule fuel l done ((ruleFn rule)^[m] i)).2.getD p false
          = done.getD p false) := by
  intro c
  induction c with
  | zero =>
    intro m hmc l done fuel hl hd hfuel hchar
    have hmk : m = k - 1 := by omega
    obtain ⟨f, rfl⟩ : ∃ f, fuel = f + 1 := ⟨fuel - 1, by omega⟩
    have hcond : done.getD (rule.getD ((ruleFn rule)^[m] i) 0) false = true := by
      have hs : rule.getD ((ruleFn rule)^[m] i) 0 = (ruleFn rule)^[m + 1] i :=
        (Function.iterate_succ_apply' (ruleFn rule) m i).symm
      rw [hs, show m + 1 = k from by omega, hiterk,
        show i = (ruleFn rule)^[0] i from rfl]
      exact (hchar 0 (by omega)).mpr (by omega)
    rw [invInner, hcond]
    simp only [if_true]
    refine ⟨⟨hl, hd⟩, ?_, ?_, ?_, ?_, ?_⟩
    · intro t ht1 ht2
      omega
    · intro hcontra
      omega
    · intro p _
      trivial
    · intro t ht
      rw [hchar t ht]
      omega
    · intro p _
      trivial
  | succ c ih =>
    intro m hmc l done fuel hl hd hfuel hchar
    have hmk : m + 1 ≤ k - 1 := by omega
    obtain ⟨f, rfl⟩ : ∃ f, fuel = f + 1 := ⟨fuel - 1, by omega⟩
    have hs : rule.getD ((ruleFn rule)^[m] i) 0 = (ruleFn rule)^[m + 1] i :=
      (Function.iterate_succ_apply' (ruleFn rule) m i).symm
    have hcond : done.getD (rule.getD ((ruleFn rule)^[m] i) 0) false = false := by
      rw [hs]
      apply bool_false_of_iff (hchar (m + 1) (by omega))
      omega
    rw [invInner, hcond]
    simp only [Bool.false_eq_true, if_false]
    rw [hs]
    have hσm : (ruleFn rule)^[m] i < n := iter_lt hperm m hi
    have hσm1 : (ruleFn rule)^[m + 1] i < n := iter_lt hperm (m + 1) hi
    have hne : (ruleFn rule)^[m] i ≠ (ruleFn rule)^[m + 1] i := by
      intro h
      have := hinjk m (m + 1) (by omega) (by omega) h
      omega
    have hchar' : ∀ t, t < k →
        ((done.set ((ruleFn rule)^[m] i) true).getD ((ruleFn rule)^[t] i) false = true
          ↔ t < m + 1) := by
      intro t ht
      by_cases htm : t = m
      · subst htm
        rw [getD_set_self_of_lt (by omega)]
        simp only [true_iff]
        omega
      · have hnet : (ruleFn rule)^[t] i ≠ (ruleFn rule)^[m] i := by
          intro h
          exact htm (hinjk t m ht (by omega) h)
        rw [getD_set_ne' hnet, hchar t ht]
        omega
    have hIH := ih (m + 1) (by omega)
      (swapL l ((ruleFn rule)^[m] i) ((ruleFn rule)^[m + 1] i))
      (done.set ((ruleFn rule)^[m] i) true) f
      (by rw [length_swapL]; exact hl) (by rw [List.length_set]; exact hd)
      (by omega) hchar'
    obtain ⟨hlen2, hA, hB, hC, hD, hE⟩ := hIH
    have swval : ∀ x : Nat,
        (swapL l ((ruleFn rule)^[m] i) ((ruleFn rule)^[m + 1] i))[x]?
          = if x = (ruleFn rule)^[m + 1] i then l[(ruleFn rule)^[m] i]?
            else if x = (ruleFn rule)^[m] i then l[(ruleFn rule)^[m + 1] i]?
            else l[x]? :=
      fun x => getElem?_swapL l (by omega) (by omega) x
    refine ⟨hlen2, ?_, ?_, ?_, hD, ?_⟩
    · -- values along the walked positions
      intro t ht1 ht2
      by_cases htm : t = m
      · rw [htm]
        have hg : m + 1 + 1 ≤ k - 1 → ∀ u, m + 1 ≤ u → u ≤ k - 1 →
            (ruleFn rule)^[m] i ≠ (ruleFn rule)^[u] i := by
          intro _ u hu1 hu2 h
          have := hinjk m u (by omega) (by omega) h
          omega
        have hC' := hC ((ruleFn rule)^[m] i) hg
        rw [hC', swval, if_neg hne, if_pos rfl]
      · have hA' := hA t (by omega) ht2
        rw [hA', swval]
        have h1 : (ruleFn rule)^[t + 1] i ≠ (ruleFn rule)^[m + 1] i := by
          intro h
          have := hinjk (t + 1) (m + 1) (by omega) (by omega) h
          omega
        have h2 : (ruleFn rule)^[t + 1] i ≠ (ruleFn rule)^[m] i := by
          intro h
          have := hinjk (t + 1) m (by omega) (by omega) h
          omega
        rw [if_neg h1, if_neg h2]
    · -- the element at the entry position lands on the last cycle slot
      intro _
      rcases Nat.lt_or_ge (m + 1 + 1) k with hc1 | hc2
      · have hB' := hB (by omega)
        rw [hB', swval, if_pos rfl]
      · -- the recursive walk is already at the final slot
        have hm1 : m + 1 = k - 1 := by omega
        have hC' := hC ((ruleFn rule)^[k - 1] i) ?hg2
        case hg2 =>
          intro hcontra
          omega
        rw [hC', swval, show (ruleFn rule)^[k - 1] i
            = (ruleFn rule)^[m + 1] i from by rw [hm1], if_pos rfl]
    · -- untouched positions
      intro p hp
      have hp' := hp hmk
      have hC' := hC p ?hg3
      case hg3 =>
        intro _ t ht1 ht2
        exact hp' t (by omega) ht2
      rw [hC', swval, if_neg (hp' (m + 1) (by omega) (by omega)),
        if_neg (hp' m (by omega) (by omega))]
    · -- done entries away from the orbit
      intro p hp
      rw [hE p hp, getD_set_ne' (hp m (by omega))]

theorem sbriGo_invariant {rule : List Nat} {n : Nat} {α : Type}
    (hperm : rule.Perm (List.range n)) (l₀ : List α) (hl₀ : l₀.length = n) :
    ∀ i₀, i₀ ≤ n →
      (sbriGo rule n i₀ (l₀, List.replicate n false)).1.length = n ∧
      (sbriGo rule n i₀ (l₀, List.replicate n false)).2.length = n ∧
      (∀ p, p < n → minOrb rule n p < i₀ →
        (sbriGo rule n i₀ (l₀, List.replicate n false)).1[p]? = l₀[ruleFn rule p]?) ∧
      (∀ p, p < n → ¬ minOrb rule n p < i₀ →
        (sbriGo rule n i₀ (l₀, List.replicate n false)).1[p]? = l₀[p]?) ∧
      (∀ p, p < n →
        ((sbriGo rule n i₀ (l₀, List.replicate n false)).2.getD p false = true ↔
          (minOrb rule n p < i₀ ∧
            (ruleFn rule p = p ∨ ruleFn rule p ≠ minOrb rule n p)))) := by
  intro i₀
  induction i₀ with
  | zero =>
    intro _
    refine ⟨hl₀, by simp [sbriGo], ?_, ?_, ?_⟩
    · intro p hp hcontra
      omega
    · intro p hp _
      rfl
    · intro p hp
      rw [show (sbriGo rule n 0 (l₀, List.replicate n false)).2
          = List.replicate n false from rfl, getD_replicate_false]
      constructor
      · intro h
        simp at h
      · rintro ⟨h1, _⟩
        omega
  | succ i₀ ih =>
    intro hle
    have hi₀n : i₀ < n := by omega
    obtain ⟨hlen1, hlen2, hP1, hP2, hP3⟩ := ih (by omega)
    rw [sbriGo]
    set s := sbriGo rule n i₀ (l₀, List.replicate n false) with hs
    unfold sbriStep
    cases hcond : s.2.getD i₀ false with
    | true =>
      simp only [hcond, if_true]
      have hproc := (hP3 i₀ hi₀n).mp hcond
      have hnoteq : ∀ p, p < n → minOrb rule n p ≠ i₀ := by
        intro p hp heq
        have h1 : inOrb rule p i₀ := heq ▸ inOrb_minOrb rule n p
        have h2 : minOrb rule n i₀ = minOrb rule n p :=
          minOrb_eq_of_inOrb hperm hp h1
        rw [heq] at h2
        omega
      refine ⟨hlen1, hlen2, ?_, ?_, ?_⟩
      · intro p hp hm
        have := hnoteq p hp
        exact hP1 p hp (by omega)
      · intro p hp hm
        exact hP2 p hp (by omega)
      · intro p hp
        rw [hP3 p hp]
        have := hnoteq p hp
        constructor
        · rintro ⟨h1, h2⟩
          exact ⟨by omega, h2⟩
        · rintro ⟨h1, h2⟩
          exact ⟨by omega, h2⟩
    | false =>
      simp only [hcond, Bool.false_eq_true, if_false]
      have hnotm := (fun hcontra => by rw [(hP3 i₀ hi₀n).mpr hcontra] at hcond; simp at hcond :
        ¬ (minOrb rule n i₀ < i₀ ∧
          (ruleFn rule i₀ = i₀ ∨ ruleFn rule i₀ ≠ minOrb rule n i₀)))
      have hle' : minOrb rule n i₀ ≤ i₀ := minOrb_le_self rule n i₀
      rcases Nat.lt_or_ge (minOrb rule n i₀) i₀ with hproc | hfresh'
      · -- re-entry on an already processed cycle: the walk stops at once
        have hre : ruleFn rule i₀ ≠ i₀ ∧ ruleFn rule i₀ = minOrb rule n i₀ := by
          by_cases h1 : ruleFn rule i₀ = i₀
          · exact absurd ⟨hproc, Or.inl h1⟩ hnotm
          · by_cases h2 : ruleFn rule i₀ = minOrb rule n i₀
            · exact ⟨h1, h2⟩
            · exact absurd ⟨hproc, Or.inr h2⟩ hnotm
        have he_lt : minOrb rule n i₀ < n := minOrb_lt hperm hi₀n
        have he_min : minOrb rule n (minOrb rule n i₀) = minOrb rule n i₀ :=
          minOrb_eq_of_inOrb hperm hi₀n (inOrb_minOrb rule n i₀)
        have hemark : s.2.getD (minOrb rule n i₀) false = true := by
          apply (hP3 _ he_lt).mpr
          refine ⟨by omega, ?_⟩
          by_cases hh : ruleFn rule (minOrb rule n i₀) = minOrb rule n i₀
          · exact Or.inl hh
          · refine Or.inr ?_
            rw [he_min]
            exact hh
        have hstop : invInner rule (n + 1) s.1 s.2 i₀ = (s.1, s.2) := by
          rw [invInner, show rule.getD i₀ 0 = minOrb rule n i₀ from hre.2, hemark]
          simp only [if_true]
        rw [hstop]
        have hnoteq : ∀ p, p < n → minOrb rule n p ≠ i₀ := by
          intro p hp heq
          have h1 : inOrb rule p i₀ := heq ▸ inOrb_minOrb rule n p
          have h2 : minOrb rule n i₀ = minOrb rule n p :=
            minOrb_eq_of_inOrb hperm hp h1
          rw [heq] at h2
          omega
        refine ⟨hlen1, hlen2, ?_, ?_, ?_⟩
        · intro p hp hm
          have := hnoteq p hp
          exact hP1 p hp (by omega)
        · intro p hp hm
          exact hP2 p hp (by omega)
        · intro p hp
          rw [hP3 p hp]
          have := hnoteq p hp
          constructor
          · rintro ⟨h1, h2⟩
            exact ⟨by omega, h2⟩
          · rintro ⟨h1, h2⟩
            exact ⟨by omega, h2⟩
      · -- fresh cycle
        have hfresh : minOrb rule n i₀ = i₀ := by omega
        have hnotorb : ∀ q, q < n → minOrb rule n q ≠ i₀ →
            ∀ t, (ruleFn rule)^[t] i₀ ≠ q := by
          intro q hq hne t heq
          have h1 : inOrb rule i₀ q := ⟨t, heq⟩
          have h2 := minOrb_eq_of_inOrb hperm hi₀n h1
          rw [hfresh] at h2
          exact hne h2
        have horbmin : ∀ t, minOrb rule n ((ruleFn rule)^[t] i₀) = i₀ := by
          intro t
          have := minOrb_eq_of_inOrb hperm hi₀n (inOrb_iter rule i₀ t)
          rw [this, hfresh]
        by_cases hkfix : ruleFn rule i₀ = i₀
        · rw [invInner_fix hkfix (by rw [hlen2]; exact hi₀n) hcond s.1 (by omega)]
          have horb_eq : ∀ p, p < n → minOrb rule n p = i₀ → p = i₀ := by
            intro p hp heq
            have h1 : inOrb rule p i₀ := heq ▸ inOrb_minOrb rule n p
            exact inOrb_fix hkfix (inOrb_symm hperm hp h1)
          refine ⟨hlen1, by rw [List.length_set]; exact hlen2, ?_, ?_, ?_⟩
          · intro p hp hm
            rcases Nat.lt_or_ge (minOrb rule n p) i₀ with hlt | hge
            · exact hP1 p hp hlt
            · have heq : minOrb rule n p = i₀ := by omega
              have hpi : p = i₀ := horb_eq p hp heq
              subst hpi
              rw [show ruleFn rule p = p from hkfix]
              exact hP2 p hp (by omega)
          · intro p hp hm
            exact hP2 p hp (by omega)
          · intro p hp
            by_cases hpi : p = i₀
            · subst hpi
              rw [getD_set_self_of_lt (by rw [hlen2]; exact hi₀n)]
              constructor
              · intro _
                exact ⟨by omega, Or.inl hkfix⟩
              · intro _
                rfl
            · rw [getD_set_ne' hpi, hP3 p hp]
              have : minOrb rule n p ≠ i₀ := fun h => hpi (horb_eq p hp h)
              constructor
              · rintro ⟨h1, h2⟩
                exact ⟨by omega, h2⟩
              · rintro ⟨h1, h2⟩
                exact ⟨by omega, h2⟩
        · -- genuine cycle of length at least 2
          have hk2 : 2 ≤ Function.minimalPeriod (ruleFn rule) i₀ := by
            rcases Nat.lt_or_ge (Function.minimalPeriod (ruleFn rule) i₀) 2 with h2 | h2
            · exfalso
              have hk1 := per_pos hperm hi₀n
              have hkeq : Function.minimalPeriod (ruleFn rule) i₀ = 1 := by omega
              have hit := Function.iterate_minimalPeriod (f := ruleFn rule) (x := i₀)
              rw [hkeq, iterate_one_eq] at hit
              exact hkfix hit
            · exact h2
          have hinj : ∀ a b, a < Function.minimalPeriod (ruleFn rule) i₀ →
              b < Function.minimalPeriod (ruleFn rule) i₀ →
              (ruleFn rule)^[a] i₀ = (ruleFn rule)^[b] i₀ → a = b := by
            intro a b ha hb h
            exact Function.iterate_injOn_Iio_minimalPeriod ha hb h
          have hchar0 : ∀ t, t < Function.minimalPeriod (ruleFn rule) i₀ →
              (s.2.getD ((ruleFn rule)^[t] i₀) false = true ↔ t < 0) := by
            intro t ht
            have hlt : (ruleFn rule)^[t] i₀ < n := iter_lt hperm t hi₀n
            have hfalse : s.2.getD ((ruleFn rule)^[t] i₀) false = false := by
              apply bool_false_of_iff (hP3 _ hlt)
              rintro ⟨h1, _⟩
              rw [horbmin t] at h1
              omega
            rw [hfalse]
            constructor
            · intro h
              simp at h
            · intro h
              omega
          have hwalk := invInner_walk hperm hi₀n hk2
            (Function.iterate_minimalPeriod) hinj
            (Function.minimalPeriod (ruleFn rule) i₀ - 1) 0 (by omega)
            s.1 s.2 (n + 1) hlen1 hlen2
            (by have := per_le hperm hi₀n; omega) hchar0
          obtain ⟨⟨hwlen1, hwlen2⟩, hwA, hwB, hwC, hwD, hwE⟩ := hwalk
          simp only [show (ruleFn rule)^[0] i₀ = i₀ from rfl]
            at hwlen1 hwlen2 hwA hwB hwC hwD hwE
          refine ⟨hwlen1, hwlen2, ?_, ?_, ?_⟩
          · intro p hp hm
            rcases Nat.lt_or_ge (minOrb rule n p) i₀ with hlt | hge
            · have hC' := hwC p
                (fun _ => fun t _ _ h => hnotorb p hp (by omega) t h.symm)
              rw [hC']
              exact hP1 p hp hlt
            · have heq : minOrb rule n p = i₀ := by omega
              have h1 : inOrb rule p i₀ := heq ▸ inOrb_minOrb rule n p
              have h2 : inOrb rule i₀ p := inOrb_symm hperm hp h1
              obtain ⟨t, htk, htp⟩ := inOrb_bounded hperm hi₀n h2
              have hσp : ruleFn rule p = (ruleFn rule)^[t + 1] i₀ := by
                rw [← htp]
                exact (Function.iterate_succ_apply' (ruleFn rule) t i₀).symm
              rcases Nat.lt_or_ge (t + 1) (Function.minimalPeriod (ruleFn rule) i₀)
                  with htmid | htlast
              · have hA' := hwA t (by omega) (by omega)
                rw [htp] at hA'
                rw [hA', hσp]
                have hfr : (ruleFn rule)^[t + 1] i₀ < n := iter_lt hperm _ hi₀n
                exact hP2 _ hfr (by rw [horbmin]; omega)
              · have htk1 : t + 1 = Function.minimalPeriod (ruleFn rule) i₀ := by
                  omega
                have hter : t = Function.minimalPeriod (ruleFn rule) i₀ - 1 := by
                  omega
                have hB' := hwB (by omega)
                rw [← hter, htp] at hB'
                rw [hB', hσp, htk1, Function.iterate_minimalPeriod]
                exact hP2 i₀ hi₀n (by omega)
          · intro p hp hm
            have hne : minOrb rule n p ≠ i₀ := by omega
            have hC' := hwC p (fun _ => fun t _ _ h => hnotorb p hp hne t h.symm)
            rw [hC']
            exact hP2 p hp (by omega)
          · intro p hp
            by_cases hpm : minOrb rule n p = i₀
            · have h1 : inOrb rule p i₀ := hpm ▸ inOrb_minOrb rule n p
              have h2 : inOrb rule i₀ p := inOrb_symm hperm hp h1
              obtain ⟨t, htk, htp⟩ := inOrb_bounded hperm hi₀n h2
              have hD' := hwD t htk
              rw [htp] at hD'
              rw [hD']
              have hσp : ruleFn rule p = (ruleFn rule)^[t + 1] i₀ := by
                rw [← htp]
                exact (Function.iterate_succ_apply' (ruleFn rule) t i₀).symm
              have hnofix : ¬ ruleFn rule p = p := by
                intro hfx
                have hs1 : (ruleFn rule)^[t + 1] i₀ = (ruleFn rule)^[t] i₀ := by
                  rw [Function.iterate_succ_apply', htp, hfx]
                rcases Nat.lt_or_ge (t + 1) (Function.minimalPeriod (ruleFn rule) i₀)
                    with hm1 | hm2
                · have := hinj (t + 1) t hm1 htk hs1
                  omega
                · have htk1 : t + 1 = Function.minimalPeriod (ruleFn rule) i₀ := by
                    omega
                  have hs2 : (ruleFn rule)^[0] i₀ = (ruleFn rule)^[t] i₀ := by
                    rw [← hs1, htk1, Function.iterate_minimalPeriod]
                    rfl
                  have := hinj 0 t (by omega) htk hs2
                  omega
              have hlast_iff : ruleFn rule p = i₀ ↔
                  t + 1 = Function.minimalPeriod (ruleFn rule) i₀ := by
                constructor
                · intro h
                  rcases Nat.lt_or_ge (t + 1) (Function.minimalPeriod (ruleFn rule) i₀)
                      with hm1 | hm2
                  · exfalso
                    have hs2 : (ruleFn rule)^[t + 1] i₀ = (ruleFn rule)^[0] i₀ := by
                      rw [← hσp, h]
                      rfl
                    have := hinj (t + 1) 0 hm1 (by omega) hs2
                    omega
                  · omega
                · intro h
                  rw [hσp, h, Function.iterate_minimalPeriod]
              constructor
              · intro h1
                refine ⟨by omega, Or.inr ?_⟩
                rw [hpm]
                intro h
                have := hlast_iff.mp h
                omega
              · rintro ⟨_, h2⟩
                rcases h2 with hfx | hnem
                · exact absurd hfx hnofix
                · rw [hpm] at hnem
                  have : t + 1 ≠ Function.minimalPeriod (ruleFn rule) i₀ :=
                    fun h => hnem (hlast_iff.mpr h)
                  omega
            · have hE' := hwE p (fun t _ => fun h => hnotorb p hp hpm t h.symm)
              rw [hE', hP3 p hp]
              constructor
              · rintro ⟨h1, h2⟩
                exact ⟨by omega, h2⟩
              · rintro ⟨h1, h2⟩
                exact ⟨by omega, h2⟩

theorem sortByRuleInverse_spec {rule : List Nat} {n : Nat} {α : Type}
    (hperm : rule.Perm (List.range n)) (l₀ : List α) (hl₀ : l₀.length = n)
    {p : Nat} (hp : p < n) :
    (sortByRuleInverse n rule l₀)[p]? = l₀[rule.getD p 0]? := by
  obtain ⟨_, _, hP1, _, _⟩ := sbriGo_invariant hperm l₀ hl₀ n (le_refl n)
  have hm : minOrb rule n p < n := by
    have h1 := minOrb_le_self rule n p
    omega
  exact hP1 p hp hm

theorem sortByRule_length (length : Nat) (rule : List Nat) (l : List α) :
    (sortByRule length rule l).length = l.length :=
  (sortByRule_perm length rule l).length_eq

theorem indexPermOf_length (n hash : Nat) : (indexPermOf n hash).length = n := by
  unfold indexPermOf SortSliceByIndex
  rw [sortByRule_length, List.length_range]

theorem indexPermOf_perm (n hash : Nat) :
    (indexPermOf n hash).Perm (List.range n) := by
  unfold indexPermOf SortSliceByIndex
  have := sortByRule_perm (List.range n).length
    (SortByWeight (List.range (List.range n).length) hash) (List.range n)
  exact this

theorem indexPermOf_entry_lt (n hash : Nat) {p : Nat} (hp : p < n) :
    (indexPermOf n hash).getD p 0 < n := by
  have hlen : (indexPermOf n hash).length = n := indexPermOf_length n hash
  have hmem : (indexPermOf n hash).getD p 0 ∈ indexPermOf n hash := by
    rw [List.getD_eq_getElem _ _ (by omega)]
    exact List.getElem_mem _
  exact List.mem_range.mp ((indexPermOf_perm n hash).subset hmem)

theorem sortByRule_getD_map (n : Nat) (r : List Nat) (xs : List α) (d : α)
    (hn : xs.length = n) :
    sortByRule n r xs = (sortByRule n r (List.range n)).map fun t => xs.getD t d := by
  have e : xs = (List.range n).map fun t => xs.getD t d := by
    rw [← hn]
    exact (map_getD_range xs d).symm
  conv_lhs => rw [e]
  exact sortByRule_map _ n r (List.range n)

theorem SortSliceByIndex_getD (xs : List α) (hash : Nat) (d : α) {p : Nat}
    (hp : p < xs.length) :
    (SortSliceByIndex xs hash).getD p d
      = xs.getD ((indexPermOf xs.length hash).getD p 0) d := by
  have hperm0 : indexPermOf xs.length hash
      = sortByRule xs.length (SortByWeight (List.range xs.length) hash)
          (List.range xs.length) := by
    unfold indexPermOf SortSliceByIndex
    rw [List.length_range]
  have hmap : SortSliceByIndex xs hash
      = (indexPermOf xs.length hash).map fun t => xs.getD t d := by
    rw [hperm0]
    unfold SortSliceByIndex
    exact sortByRule_getD_map xs.length _ xs d rfl
  rw [hmap]
  have hplt : p < (indexPermOf xs.length hash).length := by
    rw [indexPermOf_length]
    exact hp
  rw [List.getD_eq_getElem _ _ (by rw [List.length_map]; exact hplt),
    List.getElem_map, List.getD_eq_getElem _ _ hplt]

theorem SortSliceByIndex_length (xs : List α) (hash : Nat) :
    (SortSliceByIndex xs hash).length = xs.length := by
  unfold SortSliceByIndex
  exact sortByRule_length _ _ _

/-- C1 (counterexample): at `rule = [1,2,0]` on the sequence `[10,20,30]`,
neither `sortByRuleDirect` nor `sortByRule` produces the claimed
`new[i] = old[rule[i]]`, and `sortByRuleInverse` does not produce the claimed
`new[rule[i]] = old[i]`: the two directional conventions in the claim are
swapped relative to the code, and `sortByRule` of `hrw.go` drops the final
swap of each cycle. -/
theorem claimC1_counterexample :
    ¬ ((∀ i, i < 3 → (sortByRuleDirect 3 [1, 2, 0] ([10, 20, 30] : List Nat)).getD i 0
          = ([10, 20, 30] : List Nat).getD (([1, 2, 0] : List Nat).getD i 0) 0) ∧
      (∀ i, i < 3 → (sortByRule 3 [1, 2, 0] ([10, 20, 30] : List Nat)).getD i 0
          = ([10, 20, 30] : List Nat).getD (([1, 2, 0] : List Nat).getD i 0) 0) ∧
      (∀ i, i < 3 → (sortByRuleInverse 3 [1, 2, 0] ([10, 20, 30] : List Nat)).getD
            (([1, 2, 0] : List Nat).getD i 0) 0
          = ([10, 20, 30] : List Nat).getD i 0)) := by
  decide

/-- C1 (amended): for every valid permutation rule of `[0,N)` and every
sequence of length `N`, the cycle walk `sortByRuleDirect` realises
`new[rule[i]] = old[i]` (each element moves to the position its rule entry
names), and `sortByRuleInverse` realises `new[i] = old[rule[i]]` (each
position fetches the element its rule entry names) — the conventions are the
opposite of the ones the claim assigns, and `sortByRule` of `hrw.go`
coincides with neither. -/
theorem claimC1_direct_inverse {α : Type} (n : Nat) (rule : List Nat)
    (hperm : rule.Perm (List.range n)) (l : List α) (hl : l.length = n)
    (p : Nat) (hp : p < n) :
    (sortByRuleDirect n rule l)[rule.getD p 0]? = l[p]? ∧
    (sortByRuleInverse n rule l)[p]? = l[rule.getD p 0]? :=
  ⟨sortByRuleDirect_spec hperm l hl hp, sortByRuleInverse_spec hperm l hl hp⟩

/-- C1 (witness): the amended claim at the repository's own test vector
`rule = [4,2,0,5,3,1]` on a sequence of length 6, position 0. -/
theorem claimC1_witness :
    (([4, 2, 0, 5, 3, 1] : List Nat).Perm (List.range 6) ∧ 0 < 6) ∧
    ((sortByRuleDirect 6 [4, 2, 0, 5, 3, 1] ([0, 1, 2, 3, 4, 5] : List Nat))[
        ([4, 2, 0, 5, 3, 1] : List Nat).getD 0 0]?
      = ([0, 1, 2, 3, 4, 5] : List Nat)[0]? ∧
     (sortByRuleInverse 6 [4, 2, 0, 5, 3, 1] ([0, 1, 2, 3, 4, 5] : List Nat))[0]?
      = ([0, 1, 2, 3, 4, 5] : List Nat)[([4, 2, 0, 5, 3, 1] : List Nat).getD 0 0]?) :=
  ⟨⟨by decide, by decide⟩,
    claimC1_direct_inverse 6 [4, 2, 0, 5, 3, 1] (by decide) [0, 1, 2, 3, 4, 5]
      (by decide) 0 (by decide)⟩

/-- C2 (counterexample): with key seed 1 on a sequence of length 3, applying
`SortSliceByIndex` a second time does not leave the reordered sequence
unchanged — it applies the same positional permutation again. -/
theorem claimC2_counterexample :
    SortSliceByIndex (SortSliceByIndex ([10, 20, 30] : List Nat) 1) 1
      ≠ SortSliceByIndex ([10, 20, 30] : List Nat) 1 := by
  decide

/-- C2 (amended): ranking is deterministic — `SortByWeight` is a pure
function of its arguments, so calling it twice with the same arguments gives
the same permutation by construction — but reordering does not have the
reordered state as a fixed point: `SortSliceByIndex` applies the positional
source map `indexPermOf`, which depends only on length and seed, so a second
call composes that same map with itself instead of leaving the sequence
unchanged. -/
theorem claimC2_reapply {α : Type} (xs : List α) (hash : Nat) (d : α)
    (p : Nat) (hp : p < xs.length) :
    (SortSliceByIndex (SortSliceByIndex xs hash) hash).getD p d
      = xs.getD ((indexPermOf xs.length hash).getD
          ((indexPermOf xs.length hash).getD p 0) 0) d := by
  have hlen : (SortSliceByIndex xs hash).length = xs.length :=
    SortSliceByIndex_length xs hash
  rw [SortSliceByIndex_getD (SortSliceByIndex xs hash) hash d
      (by rw [hlen]; exact hp), hlen,
    SortSliceByIndex_getD xs hash d (indexPermOf_entry_lt xs.length hash hp)]

/-- C2 (witness): the amended claim at `[10,20,30]`, seed 1, position 0. -/
theorem claimC2_witness :
    0 < ([10, 20, 30] : List Nat).length ∧
    (SortSliceByIndex (SortSliceByIndex ([10, 20, 30] : List Nat) 1) 1).getD 0 0
      = ([10, 20, 30] : List Nat).getD ((indexPermOf 3 1).getD
          ((indexPermOf 3 1).getD 0 0) 0) 0 :=
  ⟨by decide, claimC2_reapply ([10, 20, 30] : List Nat) 1 0 0 (by decide)⟩

/-- C3 (confirmed): for every list of node identifiers and every key seed,
`SortByWeight` returns a permutation of `[0,N)` whose per-index weights are
ascending (smallest weight first).  The Go function reads `nodes` only (it
appends to two fresh slices), so the input is not mutated; the pure
embedding returns a new list. -/
theorem claimC3_rank_perm_sorted (nodes : List Nat) (hash : Nat) :
    (SortByWeight nodes hash).Perm (List.range nodes.length) ∧
    ∀ k, k + 1 < (SortByWeight nodes hash).length →
      weight (nodes.getD ((SortByWeight nodes hash).getD k 0) 0) hash
        ≤ weight (nodes.getD ((SortByWeight nodes hash).getD (k + 1) 0) 0) hash :=
  ⟨SortByWeight_perm nodes hash, SortByWeight_sorted nodes hash⟩

/-- C3 (witness): the claim at `nodes = [1,2,5]` and seed 0. -/
theorem claimC3_witness :
    (SortByWeight [1, 2, 5] 0).Perm (List.range 3) ∧
    (0 + 1 < (SortByWeight [1, 2, 5] 0).length ∧
      weight (([1, 2, 5] : List Nat).getD ((SortByWeight [1, 2, 5] 0).getD 0 0) 0) 0
        ≤ weight (([1, 2, 5] : List Nat).getD ((SortByWeight [1, 2, 5] 0).getD 1 0) 0) 0) :=
  ⟨(claimC3_rank_perm_sorted [1, 2, 5] 0).1,
    by decide, (claimC3_rank_perm_sorted [1, 2, 5] 0).2 0 (by decide)⟩

/-- C4 (counterexample): `nodes = [1,2,5,5,5,5,2]` with seed 0 has equal
weights at indices 1 and 6 (duplicate identifier 2), yet `SortByWeight`
ranks index 6 before index 1: at length 7 the gap-6 Shell pass of the Go
sort moves the later duplicate in front, so equal-weight indices are not in
ascending original order. -/
theorem claimC4_counterexample :
    weight (([1, 2, 5, 5, 5, 5, 2] : List Nat).getD 1 0) 0
        = weight (([1, 2, 5, 5, 5, 5, 2] : List Nat).getD 6 0) 0 ∧
    SortByWeight [1, 2, 5, 5, 5, 5, 2] 0 = [6, 1, 0, 2, 3, 4, 5] ∧
    ¬ (∀ p q, p < q → q < (SortByWeight [1, 2, 5, 5, 5, 5, 2] 0).length →
        weight (([1, 2, 5, 5, 5, 5, 2] : List Nat).getD
            ((SortByWeight [1, 2, 5, 5, 5, 5, 2] 0).getD p 0) 0) 0
          = weight (([1, 2, 5, 5, 5, 5, 2] : List Nat).getD
            ((SortByWeight [1, 2, 5, 5, 5, 5, 2] 0).getD q 0) 0) 0 →
        (SortByWeight [1, 2, 5, 5, 5, 5, 2] 0).getD p 0
          < (SortByWeight [1, 2, 5, 5, 5, 5, 2] 0).getD q 0) := by
  refine ⟨by decide, by decide, ?_⟩
  intro hcontra
  have := hcontra 0 1 (by decide) (by decide) (by decide)
  exact absurd this (by decide)

/-- C4 (amended): the ranking is still a deterministic permutation under
weight collisions, and for lists of length at most 6 — where the Go sort is
a pure insertion sort, with no Shell pass — equal-weight indices do appear
in ascending original-index order; from length 7 on the Shell pass can
invert them (see the counterexample). -/
theorem claimC4_stable_small (nodes : List Nat) (hash : Nat)
    (hsmall : nodes.length ≤ 6) (p q : Nat) (hpq : p < q)
    (hq : q < (SortByWeight nodes hash).length)
    (heq : weight (nodes.getD ((SortByWeight nodes hash).getD p 0) 0) hash
      = weight (nodes.getD ((SortByWeight nodes hash).getD q 0) 0) hash) :
    (SortByWeight nodes hash).getD p 0 < (SortByWeight nodes hash).getD q 0 :=
  SortByWeight_stable_small nodes hash hsmall p q hpq hq heq

/-- C4 (witness): the amended claim at `nodes = [7,3,7]`, seed 0, where the
duplicate identifier 7 gives equal weights at indices 0 and 2. -/
theorem claimC4_witness :
    ([7, 3, 7] : List Nat).length ≤ 6 ∧
    (SortByWeight [7, 3, 7] 0).getD 1 0 < (SortByWeight [7, 3, 7] 0).getD 2 0 :=
  ⟨by decide,
    claimC4_stable_small [7, 3, 7] 0 (by decide) 1 2 (by decide) (by decide) (by decide)⟩

/-- C5 (confirmed): the reordering applied by `SortSliceByIndex` depends
only on the sequence length and the key seed: for any two sequences of equal
length and the same seed, every position receives the element from the same
original position, given by the shared source map `indexPermOf`. -/
theorem claimC5_value_independent {α β : Type} (xs : List α) (ys : List β)
    (hash : Nat) (hlen : xs.length = ys.length) (dx : α) (dy : β)
    (p : Nat) (hp : p < xs.length) :
    (SortSliceByIndex xs hash).getD p dx
        = xs.getD ((indexPermOf xs.length hash).getD p 0) dx ∧
    (SortSliceByIndex ys hash).getD p dy
        = ys.getD ((indexPermOf xs.length hash).getD p 0) dy := by
  constructor
  · exact SortSliceByIndex_getD xs hash dx hp
  · have hp' : p < ys.length := by omega
    have := SortSliceByIndex_getD ys hash dy hp'
    rw [← hlen] at this
    exact this

/-- C5 (witness): the claim at `[10,20,30]` and `[7,8,9]`, seed 1,
position 0. -/
theorem claimC5_witness :
    (([10, 20, 30] : List Nat).length = ([7, 8, 9] : List Nat).length ∧ 0 < 3) ∧
    ((SortSliceByIndex ([10, 20, 30] : List Nat) 1).getD 0 0
        = ([10, 20, 30] : List Nat).getD ((indexPermOf 3 1).getD 0 0) 0 ∧
      (SortSliceByIndex ([7, 8, 9] : List Nat) 1).getD 0 0
        = ([7, 8, 9] : List Nat).getD ((indexPermOf 3 1).getD 0 0) 0) :=
  ⟨⟨rfl, by decide⟩,
    claimC5_value_independent [10, 20, 30] [7, 8, 9] 1 rfl 0 0 0 (by decide)⟩

/-- C6 (confirmed): the weight function is commutative in its two
arguments — the inputs are combined with XOR before the finalizer mix. -/
theorem claimC6_weight_comm (x y : Nat) : weight x y = weight y x :=
  weight_comm x y

/-- C7 (counterexample): a nil argument does not produce the
`InvalidArgumentError`: `reflect.TypeOf(nil)` returns a nil
`reflect.Type`, and the following `t.Kind()` call panics with a nil-pointer
dereference, so `SortSliceByValue(nil, h)` panics instead of returning
"must be slice". -/
theorem claimC7_counterexample :
    SortSliceByValue (fun _ => 0) GoValue.goNil 0 = SliceOutcome.panicked := rfl

/-- C7 (amended): for every non-nil argument whose kind is not a slice and
every key seed, `SortSliceByValue` returns the "must be slice" error with
the argument untouched and does not panic — this holds for every choice of
the external byte-key hash; a nil argument, by contrast, panics. -/
theorem claimC7_nonslice_error (HashStr : String → Nat) (v : GoValue) (hash : Nat)
    (hns : goKind v ≠ some GoKind.sliceKind) (hnn : v ≠ GoValue.goNil) :
    SortSliceByValue HashStr v hash = SliceOutcome.errored "must be slice" v := by
  cases v with
  | goNil => exact absurd rfl hnn
  | goInt k => rfl
  | goString s => rfl
  | sliceInt xs => exact absurd rfl hns
  | sliceString xs => exact absurd rfl hns
  | sliceHasher xs => exact absurd rfl hns
  | sliceByte xs => exact absurd rfl hns

/-- C7 (witness): the amended claim at the non-slice argument `10` (the
repository test's own example), with a trivial external hash. -/
theorem claimC7_witness :
    (goKind (GoValue.goInt 10) ≠ some GoKind.sliceKind ∧
      GoValue.goInt 10 ≠ GoValue.goNil) ∧
    SortSliceByValue (fun _ => 0) (GoValue.goInt 10) 0
      = SliceOutcome.errored "must be slice" (GoValue.goInt 10) :=
  ⟨⟨by decide, by decide⟩,
    claimC7_nonslice_error (fun _ => 0) (GoValue.goInt 10) 0 (by decide) (by decide)⟩

/-- C8 (confirmed): for every non-empty slice whose element type is neither
`int` nor `string` and has no `Hash` method (modelled after the test suite's
`[]byte`), and for every key seed and every external byte-key hash,
`SortSliceByValue` returns the "unknown type" error with the slice exactly
as it was — the `Hasher` check on the first element fails before any swap
is performed. -/
theorem claimC8_unknown_type (HashStr : String → Nat) (xs : List Nat) (hash : Nat)
    (hne : xs ≠ []) :
    SortSliceByValue HashStr (GoValue.sliceByte xs) hash
      = SliceOutcome.errored "unknown type" (GoValue.sliceByte xs) := by
  cases xs with
  | nil => exact absurd rfl hne
  | cons a as => rfl

/-- C8 (witness): the claim at `[]byte{1,2,3,4,5}` (the repository test's
vector truncated), seed 0. -/
theorem claimC8_witness :
    ([1, 2, 3] : List Nat) ≠ [] ∧
    SortSliceByValue (fun _ => 0) (GoValue.sliceByte [1, 2, 3]) 0
      = SliceOutcome.errored "unknown type" (GoValue.sliceByte [1, 2, 3]) :=
  ⟨by decide, claimC8_unknown_type (fun _ => 0) [1, 2, 3] 0 (by decide)⟩

/-- C9 (confirmed): `SortSliceByIndex` performs no argument validation: for
every argument whose kind is neither a slice nor one of the length-bearing
kinds (modelled: string), the call panics — `reflect.ValueOf(slice).Len()`
panics on a kind without a length — instead of returning an error or
no-opping. -/
theorem claimC9_index_panics (v : GoValue) (hash : Nat)
    (hns : goKind v ≠ some GoKind.sliceKind)
    (hnstr : goKind v ≠ some GoKind.stringKind) :
    SortSliceByIndexDyn v hash = none := by
  cases v with
  | goNil => rfl
  | goInt k => rfl
  | goString s => exact absurd rfl hnstr
  | sliceInt xs => exact absurd rfl hns
  | sliceString xs => exact absurd rfl hns
  | sliceHasher xs => exact absurd rfl hns
  | sliceByte xs => exact absurd rfl hns

/-- C9 (witness): the claim at the non-slice argument `10`, the same value
the repository's test feeds to the validating sibling. -/
theorem claimC9_witness :
    (goKind (GoValue.goInt 10) ≠ some GoKind.sliceKind ∧
      goKind (GoValue.goInt 10) ≠ some GoKind.stringKind) ∧
    SortSliceByIndexDyn (GoValue.goInt 10) 0 = none :=
  ⟨⟨by decide, by decide⟩, claimC9_index_panics (GoValue.goInt 10) 0 (by decide) (by decide)⟩

/-- C10 (confirmed): `weight(x,x) = 0` for every `x` — the initial XOR
cancels and the finalizer fixes 0 — and since the finalizer is a bijection
on 64-bit values, a node identifier equal to the key seed is the unique
weight-0 node and therefore ranks first in `SortByWeight` whenever all other
identifiers are distinct from the seed. -/
theorem claimC10_self_weight_ranks_first (nodes : List Nat) (hash i : Nat)
    (hn : i < nodes.length)
    (hbound : ∀ j, j < nodes.length → nodes.getD j 0 < 2 ^ 64)
    (hhash : hash < 2 ^ 64)
    (heq : nodes.getD i 0 = hash)
    (huniq : ∀ j, j < nodes.length → j ≠ i → nodes.getD j 0 ≠ hash) :
    (∀ x : Nat, weight x x = 0) ∧ (SortByWeight nodes hash).getD 0 0 = i :=
  ⟨weight_self, SortByWeight_head_unique_min nodes hash i hn hbound hhash heq huniq⟩

/-- C10 (witness): the claim at `nodes = [5,7,9]`, seed 7: the node equal to
the seed sits at index 1 and is ranked first. -/
theorem claimC10_witness :
    (1 < 3 ∧ ([5, 7, 9] : List Nat).getD 1 0 = 7) ∧
    weight 7 7 = 0 ∧ (SortByWeight [5, 7, 9] 7).getD 0 0 = 1 :=
  ⟨⟨by decide, by decide⟩,
    (claimC10_self_weight_ranks_first [5, 7, 9] 7 1 (by decide) (by decide)
      (by decide) (by decide) (by decide)).1 7,
    (claimC10_self_weight_ranks_first [5, 7, 9] 7 1 (by decide) (by decide)
      (by decide) (by decide) (by decide)).2⟩
